import Mathlib

/-!
# Verification of the wavelet/DCT image codec core

Shallow embedding of `JPEG-Compression/encoder_2000.py` and `decoder.py`.
Machine floats are modelled by exact rationals (all filter taps are dyadic
rationals), numpy arrays by Lean lists, and numpy's in-place mutation of
`dwt_levels` by explicit state passing.  Fallible operations (numpy
broadcast errors, Python `IndexError`, `assert`) are modelled with
`Except`/error codes.
-/

/-- Python/numpy exception kinds that the embedded code can raise. -/
inductive PyErr where
  | valueError      -- numpy broadcast / shape mismatch
  | indexError      -- Python sequence index out of range
  | typeError       -- operation applied to a value of the wrong type
  | assertionError  -- failed `assert`
  deriving DecidableEq, Repr

instance {ε α : Type u} [DecidableEq ε] [DecidableEq α] :
    DecidableEq (Except ε α) := fun a b =>
  match a, b with
  | .ok x, .ok y =>
    if h : x = y then isTrue (h ▸ rfl) else isFalse (fun hc => h (Except.ok.inj hc))
  | .error x, .error y =>
    if h : x = y then isTrue (h ▸ rfl) else isFalse (fun hc => h (Except.error.inj hc))
  | .ok _, .error _ => isFalse (fun hc => Except.noConfusion hc)
  | .error _, .ok _ => isFalse (fun hc => Except.noConfusion hc)

/-- Embeds `np.round`: round half to even (banker's rounding), as numpy does. -/
def npRound (x : ℚ) : ℤ :=
  if x - ⌊x⌋ < 1/2 then ⌊x⌋
  else if 1/2 < x - ⌊x⌋ then ⌊x⌋ + 1
  else if ⌊x⌋ % 2 = 0 then ⌊x⌋ else ⌊x⌋ + 1

/-- Normalization of one (possibly negative) Python slice endpoint for a
sequence of length `n`: negative indices count from the end and everything
is clamped into `[0, n]`. -/
def pyIdx (n : ℕ) (i : ℤ) : ℕ :=
  if i < 0 then (max ((n : ℤ) + i) 0).toNat else min i.toNat n

/-- Python step-1 slice `l[a:b]` with clamping and negative-index
semantics. -/
def pySlice (l : List α) (a b : ℤ) : List α :=
  (l.take (pyIdx l.length b)).drop (pyIdx l.length a)

/-- Embeds `np.convolve(a, b)` in mode `'full'`: entry `n` is
`∑ m, a[m] * b[n-m]` (missing entries read as 0). -/
def npConvolveFull (a b : List ℚ) : List ℚ :=
  (List.range (a.length + b.length - 1)).map
    (fun n => ∑ m ∈ Finset.range (n + 1), a.getD m 0 * b.getD (n - m) 0)

/-- Embeds `np.convolve(a, b, 'valid')`: the central `max-min+1` entries of the
full convolution, starting at index `min-1` (numpy internally swaps the
arguments so that the longer one comes first; the formula below is
symmetric in the lengths). -/
def npConvolveValid (a b : List ℚ) : List ℚ :=
  ((npConvolveFull a b).drop (min a.length b.length - 1)).take
    (max a.length b.length - min a.length b.length + 1)

/-- Embeds `encoder_2000.lfilter`: FIR filter with symmetric edge-excluding mirror
padding.  Mirrors the source line by line:
`left_pad_len = len(taps) - filter_centre - 1`, `right_pad_len = filter_centre`,
`arr = np.concatenate((array[1:1+left_pad_len][::-1], array,
array[-right_pad_len-1:-1][::-1]))`, then
`np.convolve(arr, taps[::-1], 'valid')`.  (The source's dead
`arr = array.copy()` line is omitted: `arr` is immediately rebound.) -/
def lfilter (taps : List ℚ) (array : List ℚ) (filter_centre : ℕ) : List ℚ :=
  let left_pad_len : ℤ := (taps.length : ℤ) - filter_centre - 1
  let arr := (pySlice array 1 (1 + left_pad_len)).reverse ++ array ++
    (pySlice array (-(filter_centre : ℤ) - 1) (-1)).reverse
  npConvolveValid arr taps.reverse

/-- The low-pass kernel of `dwt` (taps are exact dyadic rationals). -/
def LPF : List ℚ := [-1/8, 1/4, 3/4, 1/4, -1/8]

/-- The constant `LPF_center` in `dwt`. -/
def LPF_center : ℕ := 2

/-- The high-pass kernel of `dwt`. -/
def HPF : List ℚ := [-1/2, 1, -1/2]

/-- The constant `HPF_center` in `dwt`. -/
def HPF_center : ℕ := 2

-- ### Basic lemmas about the list-level primitives

theorem getD_range_map (f : ℕ → ℚ) (n j : ℕ) (h : j < n) :
    ((List.range n).map f).getD j 0 = f j := by
  rw [List.getD_eq_getElem?_getD]
  rw [List.getElem?_eq_getElem (by simpa using h)]
  simp

theorem pySlice_nonneg (l : List α) (a b : ℕ) (ha : a ≤ l.length) (hb : b ≤ l.length) :
    pySlice l (a : ℤ) (b : ℤ) = (l.drop a).take (b - a) := by
  unfold pySlice pyIdx
  rw [if_neg (by omega), if_neg (by omega)]
  have h1 : min ((b : ℤ)).toNat l.length = b := by omega
  have h2 : min ((a : ℤ)).toNat l.length = a := by omega
  rw [h1, h2, List.drop_take]

theorem pySlice_neg (l : List α) (a b : ℕ) (hb : 0 < b) (hba : b ≤ a)
    (ha : a ≤ l.length) :
    pySlice l (-(a : ℤ)) (-(b : ℤ)) =
      (l.drop (l.length - a)).take (a - b) := by
  unfold pySlice pyIdx
  rw [if_pos (by omega), if_pos (by omega)]
  have h1 : (max ((l.length : ℤ) + -(b : ℤ)) 0).toNat = l.length - b := by omega
  have h2 : (max ((l.length : ℤ) + -(a : ℤ)) 0).toNat = l.length - a := by omega
  rw [h1, h2, List.drop_take]
  congr 1
  omega

theorem getD_drop (l : List α) (dflt : α) (d j : ℕ) :
    (l.drop d).getD j dflt = l.getD (d + j) dflt := by
  rw [List.getD_eq_getElem?_getD, List.getD_eq_getElem?_getD, List.getElem?_drop]

theorem getD_take (l : List α) (dflt : α) (t j : ℕ) (hj : j < t) :
    (l.take t).getD j dflt = l.getD j dflt := by
  rw [List.getD_eq_getElem?_getD, List.getD_eq_getElem?_getD,
    List.getElem?_take]
  rw [if_pos hj]

theorem getD_reverse (l : List α) (dflt : α) (k : ℕ) (hk : k < l.length) :
    l.reverse.getD (l.length - 1 - k) dflt = l.getD k dflt := by
  rw [List.getD_eq_getElem?_getD, List.getD_eq_getElem?_getD,
    List.getElem?_reverse (by omega)]
  congr 2
  omega

theorem npConvolveFull_length (a b : List ℚ) :
    (npConvolveFull a b).length = a.length + b.length - 1 := by
  simp [npConvolveFull]

theorem npConvolveValid_length (a b : List ℚ) (hb : 1 ≤ b.length)
    (hab : b.length ≤ a.length) :
    (npConvolveValid a b).length = a.length - b.length + 1 := by
  unfold npConvolveValid
  rw [List.length_take, List.length_drop, npConvolveFull_length]
  omega

theorem npConvolveValid_getD (a b : List ℚ) (hb : 1 ≤ b.length)
    (hab : b.length ≤ a.length) (j : ℕ) (hj : j < a.length - b.length + 1) :
    (npConvolveValid a b).getD j 0 =
      ∑ k ∈ Finset.range b.length,
        a.getD (j + k) 0 * b.getD (b.length - 1 - k) 0 := by
  unfold npConvolveValid
  rw [min_eq_right hab, max_eq_left hab]
  rw [getD_take _ _ _ _ hj, getD_drop]
  unfold npConvolveFull
  rw [getD_range_map _ _ _ (by omega)]
  have hsplit : b.length - 1 + j + 1 = j + b.length := by omega
  rw [hsplit]
  rw [Finset.range_eq_Ico, ← Finset.sum_Ico_consecutive _ (Nat.zero_le j) (by omega)]
  have hzero : ∑ m ∈ Finset.Ico 0 j, a.getD m 0 * b.getD (b.length - 1 + j - m) 0 = 0 := by
    apply Finset.sum_eq_zero
    intro m hm
    rw [Finset.mem_Ico] at hm
    have hbz : b.getD (b.length - 1 + j - m) 0 = 0 :=
      List.getD_eq_default _ _ (by omega)
    rw [hbz]
    ring
  rw [hzero, zero_add, Finset.sum_Ico_eq_sum_range]
  have hrange : j + b.length - j = b.length := by omega
  rw [hrange]
  refine Finset.sum_congr (congrFun Finset.range_eq_Ico b.length) ?_
  intro k hk
  rw [Finset.mem_Ico] at hk
  congr 2
  omega

/-- The boundary extension as the spec words it (claim C2): the left edge
is extended by the `K-c-1` samples at indices `1..K-c-1` reversed, the
right edge by the `c` samples immediately inside the right boundary
(excluding the boundary sample) reversed. -/
def mirrorExtend (taps : List ℚ) (array : List ℚ) (c : ℕ) : List ℚ :=
  ((array.drop 1).take (taps.length - c - 1)).reverse ++ array ++
    ((array.drop (array.length - c - 1)).take c).reverse

theorem mirrorExtend_length (taps array : List ℚ) (c : ℕ)
    (hcK : c < taps.length) (hleft : taps.length - c - 1 < array.length)
    (hright : c < array.length) :
    (mirrorExtend taps array c).length = array.length + taps.length - 1 := by
  unfold mirrorExtend
  simp only [List.length_append, List.length_reverse, List.length_take,
    List.length_drop]
  omega

/-- Under the precondition (`N` exceeds both pad lengths) the padded array
built by `lfilter` via Python slicing is exactly the spec's mirror
extension. -/
theorem lfilter_pad_eq (taps array : List ℚ) (c : ℕ)
    (hcK : c < taps.length) (hleft : taps.length - c - 1 < array.length)
    (hright : c < array.length) :
    (pySlice array 1 (1 + ((taps.length : ℤ) - c - 1))).reverse ++ array ++
      (pySlice array (-(c : ℤ) - 1) (-1)).reverse =
      mirrorExtend taps array c := by
  have hl : pySlice array 1 (1 + ((taps.length : ℤ) - c - 1)) =
      (array.drop 1).take (taps.length - c - 1) := by
    have e1 : (1 : ℤ) + ((taps.length : ℤ) - c - 1) = ((taps.length - c : ℕ) : ℤ) := by
      omega
    rw [e1, show (1 : ℤ) = ((1 : ℕ) : ℤ) by norm_num,
      pySlice_nonneg _ _ _ (by omega) (by omega)]
  have hr : pySlice array (-(c : ℤ) - 1) (-1) =
      (array.drop (array.length - c - 1)).take c := by
    have e1 : (-(c : ℤ) - 1) = -(((c + 1 : ℕ)) : ℤ) := by push_cast; ring
    have e2 : (-1 : ℤ) = -(((1 : ℕ)) : ℤ) := by norm_num
    rw [e1, e2, pySlice_neg _ _ _ (by omega) (by omega) (by omega)]
    have e3 : array.length - (c + 1) = array.length - c - 1 := by omega
    rw [e3, Nat.add_sub_cancel]
  rw [hl, hr]
  rfl

theorem lfilter_eq_conv_mirror (taps array : List ℚ) (c : ℕ)
    (hcK : c < taps.length) (hleft : taps.length - c - 1 < array.length)
    (hright : c < array.length) :
    lfilter taps array c = npConvolveValid (mirrorExtend taps array c) taps.reverse := by
  simp only [lfilter]
  rw [lfilter_pad_eq taps array c hcK hleft hright]

/-- The filter preserves the length when the input exceeds both pad
lengths. -/
theorem lfilter_length (taps array : List ℚ) (c : ℕ)
    (hcK : c < taps.length) (hleft : taps.length - c - 1 < array.length)
    (hright : c < array.length) :
    (lfilter taps array c).length = array.length := by
  rw [lfilter_eq_conv_mirror taps array c hcK hleft hright]
  rw [npConvolveValid_length]
  · rw [mirrorExtend_length taps array c hcK hleft hright]
    simp only [List.length_reverse]
    omega
  · simp only [List.length_reverse]; omega
  · rw [mirrorExtend_length taps array c hcK hleft hright]
    simp only [List.length_reverse]
    omega

/-- Entry `j` of the filtered output is the correlation of the taps with
the mirror-extended input at offset `j` (equivalently: entry `j` of the
valid true convolution of the reversed kernel with the extension). -/
theorem lfilter_getD (taps array : List ℚ) (c : ℕ)
    (hcK : c < taps.length) (hleft : taps.length - c - 1 < array.length)
    (hright : c < array.length) (j : ℕ) (hj : j < array.length) :
    (lfilter taps array c).getD j 0 =
      ∑ k ∈ Finset.range taps.length,
        (mirrorExtend taps array c).getD (j + k) 0 * taps.getD k 0 := by
  rw [lfilter_eq_conv_mirror taps array c hcK hleft hright]
  have hm := mirrorExtend_length taps array c hcK hleft hright
  rw [npConvolveValid_getD _ _ (by simp only [List.length_reverse]; omega)
    (by rw [hm]; simp only [List.length_reverse]; omega) j
    (by rw [hm]; simp only [List.length_reverse]; omega)]
  simp only [List.length_reverse]
  refine Finset.sum_congr rfl ?_
  intro k hk
  rw [Finset.mem_range] at hk
  rw [getD_reverse taps 0 k hk]

/-- C2.  For every 1-D input and kernel with center-tap offset `c`, if the
input length `N` exceeds both pad lengths `K-c-1` and `c`, then `lfilter`
returns exactly `N` samples, equal to the valid true convolution of the
reversed kernel with the mirror-extended sequence; entry `j` is the
correlation `∑ k, extended[j+k] * taps[k]`. -/
theorem lfilter_matches_mirror_convolution (taps array : List ℚ) (c : ℕ)
    (hcK : c < taps.length) (hleft : taps.length - c - 1 < array.length)
    (hright : c < array.length) :
    (lfilter taps array c).length = array.length ∧
    lfilter taps array c = npConvolveValid (mirrorExtend taps array c) taps.reverse ∧
    ∀ j < array.length,
      (lfilter taps array c).getD j 0 =
        ∑ k ∈ Finset.range taps.length,
          (mirrorExtend taps array c).getD (j + k) 0 * taps.getD k 0 :=
  ⟨lfilter_length taps array c hcK hleft hright,
   lfilter_eq_conv_mirror taps array c hcK hleft hright,
   fun j hj => lfilter_getD taps array c hcK hleft hright j hj⟩

/-- Witness for C2 at the low-pass kernel and a length-3 input. -/
theorem lfilter_matches_mirror_convolution_witness :
    2 < LPF.length ∧ LPF.length - 2 - 1 < ([1, 2, 3] : List ℚ).length ∧
      2 < ([1, 2, 3] : List ℚ).length ∧
      (lfilter LPF [1, 2, 3] 2).length = ([1, 2, 3] : List ℚ).length :=
  ⟨by decide, by decide, by decide,
   (lfilter_matches_mirror_convolution LPF [1, 2, 3] 2 (by decide) (by decide)
     (by decide)).1⟩

-- ### Filter output lengths at the minimum width 2

theorem list_len_two {γ : Type} (l : List γ) (h : l.length = 2) :
    ∃ x y, l = [x, y] := by
  rcases l with _ | ⟨x, t⟩
  · simp only [List.length_nil] at h
    omega
  rcases t with _ | ⟨y, t⟩
  · simp only [List.length_cons, List.length_nil] at h
    omega
  rcases t with _ | ⟨z, t⟩
  · exact ⟨x, y, rfl⟩
  · simp only [List.length_cons] at h
    omega

/-- On a length-2 input the low-pass kernel still yields 2 samples: the
clamped slices give a 4-sample padded array and numpy's argument swap in
`'valid'` mode yields `5 - 4 + 1 = 2` samples. -/
theorem lfilter_LPF_two (x y : ℚ) : (lfilter LPF [x, y] 2).length = 2 := rfl

/-- On a length-2 input the high-pass kernel yields a single sample (the
padded array has 3 samples, matching the kernel length). -/
theorem lfilter_HPF_two (x y : ℚ) : (lfilter HPF [x, y] 2).length = 1 := rfl

/-- The low-pass filter is length-preserving on every input of length at
least 2. -/
theorem lfilter_LPF_length (arr : List ℚ) (h : 2 ≤ arr.length) :
    (lfilter LPF arr 2).length = arr.length := by
  rcases Nat.lt_or_ge arr.length 3 with h3 | h3
  · have h2 : arr.length = 2 := by omega
    obtain ⟨x, y, rfl⟩ := list_len_two arr h2
    exact lfilter_LPF_two x y
  · refine lfilter_length LPF arr 2 ?_ ?_ ?_
    · rw [show LPF.length = 5 from rfl]
      omega
    · rw [show LPF.length = 5 from rfl]
      omega
    · omega

/-- The high-pass filter either preserves the length (inputs of length at
least 3) or emits a single sample (inputs of length exactly 2). -/
theorem lfilter_HPF_length_cases (arr : List ℚ) (h : 2 ≤ arr.length) :
    (lfilter HPF arr 2).length = arr.length ∨
      ((lfilter HPF arr 2).length = 1 ∧ arr.length = 2) := by
  rcases Nat.lt_or_ge arr.length 3 with h3 | h3
  · have h2 : arr.length = 2 := by omega
    obtain ⟨x, y, rfl⟩ := list_len_two arr h2
    exact Or.inr ⟨lfilter_HPF_two x y, rfl⟩
  · left
    refine lfilter_length HPF arr 2 ?_ ?_ ?_
    · rw [show HPF.length = 3 from rfl]
      omega
    · rw [show HPF.length = 3 from rfl]
      omega
    · omega

-- ### Rounding and quantization

theorem npRound_half (x : ℚ) : |(npRound x : ℚ) - x| ≤ 1/2 := by
  have h0 : (⌊x⌋ : ℚ) ≤ x := Int.floor_le x
  have h1 : x < ⌊x⌋ + 1 := Int.lt_floor_add_one x
  unfold npRound
  split_ifs with ha hb hc
  · rw [abs_le]
    constructor <;> linarith
  · rw [abs_le]
    constructor <;> push_cast <;> linarith
  · rw [not_lt] at ha hb
    rw [abs_le]
    constructor <;> linarith
  · rw [not_lt] at ha hb
    rw [abs_le]
    constructor <;> push_cast <;> linarith

/-- The scalar quantization performed in `dwt`
(`np.round(x / quantization_Array[i])`). -/
def quantizeVal (x : ℚ) (d : ℤ) : ℤ := npRound (x / (d : ℚ))

/-- The scalar operation `decoder.dequantize` applies elementwise
(`block * quantization_table`). -/
def dequantizeVal (q d : ℤ) : ℤ := q * d

/-- Embeds `decoder.dequantize`: elementwise multiplication of every block by the
quantization table. -/
def dequantize (quantized : List (List (List ℤ))) (quantization_table : List (List ℤ)) :
    List (List (List ℤ)) :=
  quantized.map (fun block =>
    List.zipWith (fun row trow => List.zipWith dequantizeVal row trow)
      block quantization_table)

/-- C5.  Dequantizing a quantized value stays within one quantization step
of the original: `|dequantize(quantize(v, d), d) - v| <= d` for `d > 0`. -/
theorem quantize_dequantize_bound (v d : ℤ) (hd : 0 < d) :
    |dequantizeVal (quantizeVal ((v : ℤ) : ℚ) d) d - v| ≤ d := by
  unfold dequantizeVal quantizeVal
  have hd' : (0 : ℚ) < (d : ℚ) := by exact_mod_cast hd
  have hb := npRound_half ((v : ℚ) / (d : ℚ))
  have key : ((npRound ((v : ℚ) / (d : ℚ)) * d - v : ℤ) : ℚ) =
      ((npRound ((v : ℚ) / (d : ℚ)) : ℚ) - (v : ℚ) / (d : ℚ)) * (d : ℚ) := by
    push_cast
    field_simp
  have habs : |((npRound ((v : ℚ) / (d : ℚ)) * d - v : ℤ) : ℚ)| ≤ (d : ℚ) := by
    rw [key, abs_mul, abs_of_pos hd']
    have hmul := mul_le_mul_of_nonneg_right hb (le_of_lt hd')
    linarith
  exact_mod_cast habs

/-- Witness for C5 at `v = 7`, `d = 3`. -/
theorem quantize_dequantize_bound_witness :
    (0 : ℤ) < 3 ∧ |dequantizeVal (quantizeVal ((7 : ℤ) : ℚ) 3) 3 - 7| ≤ 3 :=
  ⟨by decide, quantize_dequantize_bound 7 3 (by decide)⟩

-- ### Single-level subband decomposition (`encoder_2000.dwt`)

/-- Python slicing `a[::2]`: stride-2 decimation keeping the even-indexed entries. -/
def everySecond : List α → List α
  | [] => []
  | [x] => [x]
  | x :: _ :: rest => x :: everySecond rest

/-- Column `i` of a matrix stored as a list of rows (`M[:, i]`). -/
def col (M : List (List ℚ)) (i : ℕ) : List ℚ := M.map (fun row => row.getD i 0)

/-- Embeds a numpy 1-D slice assignment `target[...] = src` where the
target slice has `n` entries: a source of matching length is copied, a
single-element source is broadcast across the slice (numpy's size-1
broadcasting), and any other length raises a broadcast `ValueError`. -/
def npSetSlice (n : ℕ) (src : List ℚ) : Except PyErr (List ℚ) :=
  if src.length = n then .ok src
  else if src.length = 1 then .ok (List.replicate n (src.getD 0 0))
  else .error .valueError

/-- The slice contents after a successful numpy assignment of `src` into a
length-`n` slice: the source itself when the lengths match, otherwise the
single entry broadcast `n` times. -/
def effSlice (n : ℕ) (src : List ℚ) : List ℚ :=
  if src.length = n then src else List.replicate n (src.getD 0 0)

/-- One row-filtering loop of `dwt`: `X[i, :] = lfilter(taps, image[i, :], c)`
for every row, with numpy's assignment semantics (`npSetSlice`) for each
length-`ncol` row of the buffer. -/
def rowPass (taps : List ℚ) (c ncol : ℕ) (M : List (List ℚ)) :
    Except PyErr (List (List ℚ)) :=
  M.mapM (fun row => npSetSlice ncol (lfilter taps row c))

/-- One column-filtering loop of `dwt`: `B[:, i] = lfilter(taps, M[:, i], c)`
for `i in range(ncol)`, each column assigned with numpy's semantics
(`npSetSlice`) into the length-`nrow` column slice, and the buffer `B`
materialised row-major as numpy stores it. -/
def colPass (taps : List ℚ) (c nrow ncol : ℕ) (M : List (List ℚ)) :
    Except PyErr (List (List ℚ)) := do
  let cls ← (List.range ncol).mapM (fun i => npSetSlice nrow (lfilter taps (col M i) c))
  return (List.range nrow).map (fun r => cls.map (fun cl => cl.getD r 0))

/-- The final loop of `dwt` for subband `i`: read the downsampled view
(even rows and even columns of the buffer), divide by
`quantization_Array[i]` and round (`IndexError` when the quantization
array has no entry `i`). -/
def quantPass (qa : List ℤ) (i : ℕ) (B : List (List ℚ)) :
    Except PyErr (List (List ℤ)) :=
  match qa.get? i with
  | some d => .ok ((everySecond B).map (fun row =>
      (everySecond row).map (fun x => quantizeVal x d)))
  | none => .error .indexError

/-- Embeds `encoder_2000.dwt`.  The source first rebinds
`filtered_image[i] = filtered_image[i][:, ::2]` on zero-filled placeholder
buffers; numpy basic slicing yields *views*, so when the column loop then
writes `LL[:, i] = ...` into the underlying buffers, each view reads the
filtered data at even column (and, after the second slicing, even row)
indices.  The net dataflow (computed here) is therefore: full row
filtering, full column filtering, stride-2 decimation on both axes, then
quantization; the zero placeholders are dead.  Row and column assignments
follow numpy's broadcasting rules (a single-sample filter output is
broadcast across the slice).  Errors are raised in the source's order:
row loop, column loop, then quantization loop. -/
def dwt (image_array : List (List ℤ)) (quantization_Array : List ℤ) :
    Except PyErr (List (List (List ℤ))) := do
  let nrow := image_array.length
  let ncol := (image_array.headD []).length
  let imgQ : List (List ℚ) := image_array.map (fun row => row.map (fun z : ℤ => (z : ℚ)))
  let LowPass_rows ← rowPass LPF LPF_center ncol imgQ
  let HighPass_rows ← rowPass HPF HPF_center ncol imgQ
  let LL ← colPass LPF LPF_center nrow ncol LowPass_rows
  let LH ← colPass HPF HPF_center nrow ncol LowPass_rows
  let HL ← colPass LPF LPF_center nrow ncol HighPass_rows
  let HH ← colPass HPF HPF_center nrow ncol HighPass_rows
  let oLL ← quantPass quantization_Array 0 LL
  let oLH ← quantPass quantization_Array 1 LH
  let oHL ← quantPass quantization_Array 2 HL
  let oHH ← quantPass quantization_Array 3 HH
  return [oLL, oLH, oHL, oHH]

/-- Claim C1's wording for one subband: the fully row-filtered then fully
column-filtered matrix, restricted to even-indexed columns and
even-indexed rows, divided elementwise by the role's divisor and rounded
to the nearest integer. -/
def specSubband (rowTaps colTaps : List ℚ) (rc cc : ℕ) (d : ℤ)
    (nrow ncol : ℕ) (image : List (List ℤ)) : List (List ℤ) :=
  let imgQ : List (List ℚ) := image.map (fun row => row.map (fun z : ℤ => (z : ℚ)))
  let R := imgQ.map (fun row => lfilter rowTaps row rc)
  let B := (List.range nrow).map (fun r =>
    (List.range ncol).map (fun i => (lfilter colTaps (col R i) cc).getD r 0))
  (everySecond B).map (fun row => (everySecond row).map (fun x => quantizeVal x d))

theorem everySecond_length (l : List α) :
    (everySecond l).length = (l.length + 1) / 2 := by
  induction l using everySecond.induct with
  | case1 => simp [everySecond]
  | case2 x => simp [everySecond]
  | case3 x y rest ih =>
    simp only [everySecond, List.length_cons, ih]
    omega

theorem everySecond_mem (l : List α) (x : α) (h : x ∈ everySecond l) : x ∈ l := by
  induction l using everySecond.induct with
  | case1 => simp [everySecond] at h
  | case2 y => simp [everySecond] at h; simp [h]
  | case3 y z rest ih =>
    simp only [everySecond, List.mem_cons] at h
    rcases h with h | h
    · simp [h]
    · have := ih h
      simp [this]

theorem exceptBind_ok (a : α) (f : α → Except ε β) :
    (Except.ok a >>= f : Except ε β) = f a := rfl

/-- A monadic map over `Except` whose steps all succeed is the plain map
of the step results. -/
theorem mapM_ok {β : Type} (f : α → Except PyErr β) (g : α → β) (l : List α)
    (h : ∀ x ∈ l, f x = .ok (g x)) :
    l.mapM f = .ok (l.map g) := by
  induction l with
  | nil => rfl
  | cons a t ih =>
    rw [List.mapM_cons, h a (List.mem_cons_self a t),
      ih (fun x hx => h x (List.mem_cons_of_mem a hx))]
    rfl

theorem npSetSlice_ok (n : ℕ) (src : List ℚ)
    (h : src.length = n ∨ src.length = 1) :
    npSetSlice n src = .ok (effSlice n src) := by
  unfold npSetSlice effSlice
  rcases h with h | h
  · rw [if_pos h, if_pos h]
  · by_cases hn : src.length = n
    · rw [if_pos hn, if_pos hn]
    · rw [if_neg hn, if_pos h, if_neg hn]

/-- The row loop succeeds whenever every filtered row either matches the
buffer width or broadcasts, leaving the effective assigned rows. -/
theorem rowPass_eff (taps : List ℚ) (c ncol : ℕ) (M : List (List ℚ))
    (h : ∀ row ∈ M, (lfilter taps row c).length = ncol ∨
      (lfilter taps row c).length = 1) :
    rowPass taps c ncol M =
      .ok (M.map (fun row => effSlice ncol (lfilter taps row c))) := by
  unfold rowPass
  apply mapM_ok
  intro row hrow
  exact npSetSlice_ok ncol _ (h row hrow)

/-- The column loop succeeds whenever every filtered column either matches
the buffer height or broadcasts; entry `(r, i)` of the buffer is entry `r`
of the effective assigned column `i`. -/
theorem colPass_eff (taps : List ℚ) (c nrow ncol : ℕ) (M : List (List ℚ))
    (h : ∀ i, i < ncol → (lfilter taps (col M i) c).length = nrow ∨
      (lfilter taps (col M i) c).length = 1) :
    colPass taps c nrow ncol M = .ok ((List.range nrow).map (fun r =>
      (List.range ncol).map (fun i =>
        (effSlice nrow (lfilter taps (col M i) c)).getD r 0))) := by
  unfold colPass
  have hcond : ∀ i ∈ List.range ncol,
      npSetSlice nrow (lfilter taps (col M i) c) =
        .ok (effSlice nrow (lfilter taps (col M i) c)) := by
    intro i hi
    rw [List.mem_range] at hi
    exact npSetSlice_ok nrow _ (h i hi)
  rw [mapM_ok _ (fun i => effSlice nrow (lfilter taps (col M i) c))
    (List.range ncol) hcond]
  simp only [exceptBind_ok, List.map_map]
  rfl

theorem rowPass_ok (taps : List ℚ) (c ncol : ℕ) (M : List (List ℚ))
    (hcK : c < taps.length) (hN : taps.length - c - 1 < ncol) (hN2 : c < ncol)
    (hrect : ∀ row ∈ M, row.length = ncol) :
    rowPass taps c ncol M = .ok (M.map (fun row => lfilter taps row c)) := by
  unfold rowPass
  apply mapM_ok
  intro row hrow
  have hflen : (lfilter taps row c).length = ncol := by
    rw [lfilter_length taps row c hcK (by rw [hrect row hrow]; omega)
      (by rw [hrect row hrow]; omega)]
    exact hrect row hrow
  unfold npSetSlice
  rw [if_pos hflen]

theorem colPass_ok (taps : List ℚ) (c nrow ncol : ℕ) (M : List (List ℚ))
    (hcK : c < taps.length) (hN : taps.length - c - 1 < nrow) (hN2 : c < nrow)
    (hlen : M.length = nrow) :
    colPass taps c nrow ncol M = .ok ((List.range nrow).map (fun r =>
      (List.range ncol).map (fun i => (lfilter taps (col M i) c).getD r 0))) := by
  unfold colPass
  have hcond : ∀ i ∈ List.range ncol,
      npSetSlice nrow (lfilter taps (col M i) c) =
        .ok (lfilter taps (col M i) c) := by
    intro i hi
    have hcollen : (col M i).length = nrow := by
      simp [col, hlen]
    have hflen : (lfilter taps (col M i) c).length = nrow := by
      rw [lfilter_length taps (col M i) c hcK (by omega) (by omega)]
      exact hcollen
    unfold npSetSlice
    rw [if_pos hflen]
  rw [mapM_ok _ (fun i => lfilter taps (col M i) c) (List.range ncol) hcond]
  simp only [exceptBind_ok, List.map_map]
  rfl

/-- At even offsets inside the slice, a broadcast whose source can only be
a single sample over a width-2 slice reads back the source's entry 0 —
the only even offset is 0. -/
theorem effSlice_getD_even (n : ℕ) (src : List ℚ) (t : ℕ)
    (h : src.length = n ∨ (src.length = 1 ∧ n = 2)) (ht : 2 * t < n) :
    (effSlice n src).getD (2 * t) 0 = src.getD (2 * t) 0 := by
  unfold effSlice
  rcases h with h | ⟨h1, h2⟩
  · rw [if_pos h]
  · subst h2
    have ht0 : t = 0 := by omega
    subst ht0
    rw [if_neg (by omega)]
    rfl

/-- Stride-2 decimation of a tabulated list keeps the entries at the
doubled indices. -/
theorem everySecond_map_range {β : Type} :
    ∀ (n : ℕ) (f : ℕ → β), everySecond ((List.range n).map f) =
      (List.range ((n + 1) / 2)).map (fun k => f (2 * k))
  | 0, f => rfl
  | 1, f => rfl
  | (m + 2), f => by
    have hsplit : List.range (m + 2) = 0 :: 1 :: (List.range m).map (fun i => i + 2) := by
      rw [List.range_succ_eq_map, List.range_succ_eq_map]
      simp only [List.map_cons, List.map_map]
      rfl
    rw [hsplit]
    simp only [List.map_cons, List.map_map]
    simp only [everySecond]
    rw [everySecond_map_range m (f ∘ fun i => i + 2)]
    have h2 : (m + 2 + 1) / 2 = (m + 1) / 2 + 1 := by omega
    rw [h2, List.range_succ_eq_map]
    simp only [List.map_cons, List.map_map]
    congr 1

theorem quantPass_ok (qa : List ℤ) (i : ℕ) (d : ℤ) (B : List (List ℚ))
    (h : qa.get? i = some d) :
    quantPass qa i B = .ok ((everySecond B).map (fun row =>
      (everySecond row).map (fun x => quantizeVal x d))) := by
  unfold quantPass
  rw [h]

theorem get?_eq_some_getD (l : List ℤ) (i : ℕ) (h : i < l.length) :
    l.get? i = some (l.getD i 0) := by
  rw [List.getD_eq_getElem?_getD, List.get?_eq_getElem?,
    List.getElem?_eq_getElem h]
  simp

/-- The four subbands claim C1 describes, in role order `[LL, LH, HL, HH]`:
low/high-pass row and column filtering per role, even-index restriction on
both axes, then quantization by the role's divisor. -/
def specDWT (qa : List ℤ) (nrow ncol : ℕ) (image : List (List ℤ)) :
    List (List (List ℤ)) :=
  [specSubband LPF LPF LPF_center LPF_center (qa.getD 0 0) nrow ncol image,
   specSubband LPF HPF LPF_center HPF_center (qa.getD 1 0) nrow ncol image,
   specSubband HPF LPF HPF_center LPF_center (qa.getD 2 0) nrow ncol image,
   specSubband HPF HPF HPF_center HPF_center (qa.getD 3 0) nrow ncol image]

theorem specSubband_shape (rowTaps colTaps : List ℚ) (rc cc : ℕ) (d : ℤ)
    (nrow ncol : ℕ) (image : List (List ℤ)) :
    (specSubband rowTaps colTaps rc cc d nrow ncol image).length = (nrow + 1) / 2 ∧
    ∀ row ∈ specSubband rowTaps colTaps rc cc d nrow ncol image,
      row.length = (ncol + 1) / 2 := by
  unfold specSubband
  constructor
  · simp [everySecond_length]
  · intro row hrow
    simp only [List.mem_map] at hrow
    obtain ⟨brow, hbrow, rfl⟩ := hrow
    have hb := everySecond_mem _ _ hbrow
    simp only [List.mem_map] at hb
    obtain ⟨r, hrr, rfl⟩ := hb
    simp [everySecond_length]

/-- Claim C1's subband, rewritten as a table of its entries: entry `(k, j)`
quantizes entry `2k` of the column filter of column `2j` of the
row-filtered matrix. -/
theorem specSubband_form (rT cT : List ℚ) (rc cc : ℕ) (d : ℤ)
    (nrow ncol : ℕ) (image : List (List ℤ)) :
    specSubband rT cT rc cc d nrow ncol image =
      (List.range ((nrow + 1) / 2)).map (fun k =>
        (List.range ((ncol + 1) / 2)).map (fun j =>
          quantizeVal ((lfilter cT (col ((image.map (fun row =>
            row.map (fun z : ℤ => (z : ℚ)))).map (fun row => lfilter rT row rc))
            (2 * j)) cc).getD (2 * k) 0) d)) := by
  simp only [specSubband]
  simp only [everySecond_map_range, List.map_map]
  apply List.map_congr_left
  intro k _
  simp only [Function.comp_apply]
  simp only [everySecond_map_range, List.map_map]
  rfl

set_option maxHeartbeats 1600000 in
/-- One subband of `dwt` (row pass with numpy assignment semantics, column
pass likewise, decimation, quantization) equals claim C1's subband,
provided each filtered row matches the width or is a single broadcast
sample over width 2, and likewise for columns against the height.  A
broadcast write differs from the filter output only beyond its length, and
the only surviving (even) index of a width-2 slice is 0, where both
agree. -/
theorem subband_eq (rT cT : List ℚ) (rc cc : ℕ) (d : ℤ) (nrow ncol : ℕ)
    (image : List (List ℤ))
    (hrow : ∀ row ∈ image.map (fun row => row.map (fun z : ℤ => (z : ℚ))),
      (lfilter rT row rc).length = ncol ∨
        ((lfilter rT row rc).length = 1 ∧ ncol = 2))
    (hcol : ∀ i : ℕ,
      (lfilter cT (col ((image.map (fun row => row.map (fun z : ℤ => (z : ℚ)))).map
        (fun row => effSlice ncol (lfilter rT row rc))) i) cc).length = nrow ∨
      ((lfilter cT (col ((image.map (fun row => row.map (fun z : ℤ => (z : ℚ)))).map
        (fun row => effSlice ncol (lfilter rT row rc))) i) cc).length = 1 ∧
        nrow = 2)) :
    (everySecond ((List.range nrow).map (fun r => (List.range ncol).map (fun i =>
        (effSlice nrow (lfilter cT (col ((image.map (fun row =>
          row.map (fun z : ℤ => (z : ℚ)))).map
          (fun row => effSlice ncol (lfilter rT row rc))) i) cc)).getD r 0)))).map
      (fun row => (everySecond row).map (fun x => quantizeVal x d)) =
    specSubband rT cT rc cc d nrow ncol image := by
  rw [specSubband_form]
  simp only [everySecond_map_range, List.map_map]
  apply List.map_congr_left
  intro k hk
  simp only [Function.comp_apply]
  simp only [everySecond_map_range, List.map_map]
  apply List.map_congr_left
  intro j hj
  simp only [Function.comp_apply]
  rw [List.mem_range] at hk hj
  have hkn : 2 * k < nrow := by omega
  have hjn : 2 * j < ncol := by omega
  have hcols : col ((image.map (fun row => row.map (fun z : ℤ => (z : ℚ)))).map
      (fun row => effSlice ncol (lfilter rT row rc))) (2 * j) =
    col ((image.map (fun row => row.map (fun z : ℤ => (z : ℚ)))).map
      (fun row => lfilter rT row rc)) (2 * j) := by
    unfold col
    simp only [List.map_map]
    apply List.map_congr_left
    intro row hrow2
    simp only [Function.comp_apply]
    exact effSlice_getD_even ncol _ j
      (hrow (row.map (fun z : ℤ => (z : ℚ))) (List.mem_map_of_mem _ hrow2)) hjn
  have hc := hcol (2 * j)
  rw [hcols] at hc
  simp only [List.map_map] at hcols hc
  rw [hcols]
  congr 1
  exact effSlice_getD_even nrow _ k hc hkn

/-- C1.  For every rectangular integer matrix with both dimensions even
and positive, and every 4-element divisor vector with nonzero entries,
`dwt` returns exactly the four matrices `[LL, LH, HL, HH]`, each equal to
the fully row-filtered then fully column-filtered matrix restricted to
even-indexed columns and rows, divided by the role's divisor and rounded;
each output has exactly half the rows and half the columns of the input
(the outputs reflect the filtered data, not stale zero placeholders).  On
an axis of size 2 the high-pass filter emits a single sample, which numpy
broadcasts across the width-2 slice; only its even index 0 survives the
decimation, where the broadcast value is the filter output's entry 0, so
the description holds there as well. -/
theorem dwt_filters_then_downsamples (image : List (List ℤ)) (qa : List ℤ)
    (nrow ncol : ℕ) (hr : image.length = nrow)
    (hrect : ∀ row ∈ image, row.length = ncol)
    (h0r : 0 < nrow) (h0c : 0 < ncol) (h2r : 2 ∣ nrow) (h2c : 2 ∣ ncol)
    (hq : qa.length = 4) (hqnz : ∀ d ∈ qa, d ≠ 0) :
    dwt image qa = .ok (specDWT qa nrow ncol image) ∧
    ∀ S ∈ specDWT qa nrow ncol image,
      S.length = nrow / 2 ∧ ∀ row ∈ S, row.length = ncol / 2 := by
  have h2r2 : 2 ≤ nrow := by omega
  have h2c2 : 2 ≤ ncol := by omega
  have hncol : (image.headD []).length = ncol := by
    cases image with
    | nil => simp at hr; omega
    | cons a t => exact hrect a (List.mem_cons_self a t)
  have himgQrect : ∀ row ∈ image.map (fun row => row.map (fun z : ℤ => (z : ℚ))),
      row.length = ncol := by
    intro row hrow
    rw [List.mem_map] at hrow
    obtain ⟨r, hrm, rfl⟩ := hrow
    rw [List.length_map]
    exact hrect r hrm
  have hrowLs : ∀ row ∈ image.map (fun row => row.map (fun z : ℤ => (z : ℚ))),
      (lfilter LPF row LPF_center).length = ncol ∨
        ((lfilter LPF row LPF_center).length = 1 ∧ ncol = 2) := by
    intro row hrow
    left
    have hlen : row.length = ncol := himgQrect row hrow
    have h := lfilter_LPF_length row (by omega)
    rw [hlen] at h
    exact h
  have hrowHs : ∀ row ∈ image.map (fun row => row.map (fun z : ℤ => (z : ℚ))),
      (lfilter HPF row HPF_center).length = ncol ∨
        ((lfilter HPF row HPF_center).length = 1 ∧ ncol = 2) := by
    intro row hrow
    have hlen : row.length = ncol := himgQrect row hrow
    have h := lfilter_HPF_length_cases row (by omega)
    rw [hlen] at h
    exact h
  have hcolLen : ∀ (Mc : List (List ℚ)), Mc.length = nrow → ∀ i : ℕ,
      (col Mc i).length = nrow := by
    intro Mc hMc i
    simp [col, hMc]
  have hcolLs : ∀ (Mc : List (List ℚ)), Mc.length = nrow → ∀ i : ℕ,
      (lfilter LPF (col Mc i) LPF_center).length = nrow ∨
        ((lfilter LPF (col Mc i) LPF_center).length = 1 ∧ nrow = 2) := by
    intro Mc hMc i
    left
    have hcl := hcolLen Mc hMc i
    have h := lfilter_LPF_length (col Mc i) (by omega)
    rw [hcl] at h
    exact h
  have hcolHs : ∀ (Mc : List (List ℚ)), Mc.length = nrow → ∀ i : ℕ,
      (lfilter HPF (col Mc i) HPF_center).length = nrow ∨
        ((lfilter HPF (col Mc i) HPF_center).length = 1 ∧ nrow = 2) := by
    intro Mc hMc i
    have hcl := hcolLen Mc hMc i
    have h := lfilter_HPF_length_cases (col Mc i) (by omega)
    rw [hcl] at h
    exact h
  have hMLlen : ((image.map (fun row => row.map (fun z : ℤ => (z : ℚ)))).map
      (fun row => effSlice ncol (lfilter LPF row LPF_center))).length = nrow := by
    simpa using hr
  have hMHlen : ((image.map (fun row => row.map (fun z : ℤ => (z : ℚ)))).map
      (fun row => effSlice ncol (lfilter HPF row HPF_center))).length = nrow := by
    simpa using hr
  constructor
  · simp only [dwt]
    rw [hr, hncol]
    rw [rowPass_eff LPF LPF_center ncol _
      (fun row hrow => (hrowLs row hrow).imp id And.left)]
    simp only [exceptBind_ok]
    rw [rowPass_eff HPF HPF_center ncol _
      (fun row hrow => (hrowHs row hrow).imp id And.left)]
    simp only [exceptBind_ok]
    rw [colPass_eff LPF LPF_center nrow ncol _
      (fun i _ => (hcolLs _ hMLlen i).imp id And.left)]
    simp only [exceptBind_ok]
    rw [colPass_eff HPF HPF_center nrow ncol _
      (fun i _ => (hcolHs _ hMLlen i).imp id And.left)]
    simp only [exceptBind_ok]
    rw [colPass_eff LPF LPF_center nrow ncol _
      (fun i _ => (hcolLs _ hMHlen i).imp id And.left)]
    simp only [exceptBind_ok]
    rw [colPass_eff HPF HPF_center nrow ncol _
      (fun i _ => (hcolHs _ hMHlen i).imp id And.left)]
    simp only [exceptBind_ok]
    rw [quantPass_ok qa 0 (qa.getD 0 0) _ (get?_eq_some_getD qa 0 (by omega))]
    simp only [exceptBind_ok]
    rw [quantPass_ok qa 1 (qa.getD 1 0) _ (get?_eq_some_getD qa 1 (by omega))]
    simp only [exceptBind_ok]
    rw [quantPass_ok qa 2 (qa.getD 2 0) _ (get?_eq_some_getD qa 2 (by omega))]
    simp only [exceptBind_ok]
    rw [quantPass_ok qa 3 (qa.getD 3 0) _ (get?_eq_some_getD qa 3 (by omega))]
    simp only [exceptBind_ok]
    simp only [specDWT]
    rw [← subband_eq LPF LPF LPF_center LPF_center (qa.getD 0 0) nrow ncol image
      hrowLs (fun i => hcolLs _ hMLlen i)]
    rw [← subband_eq LPF HPF LPF_center HPF_center (qa.getD 1 0) nrow ncol image
      hrowLs (fun i => hcolHs _ hMLlen i)]
    rw [← subband_eq HPF LPF HPF_center LPF_center (qa.getD 2 0) nrow ncol image
      hrowHs (fun i => hcolLs _ hMHlen i)]
    rw [← subband_eq HPF HPF HPF_center HPF_center (qa.getD 3 0) nrow ncol image
      hrowHs (fun i => hcolHs _ hMHlen i)]
    rfl
  · intro S hS
    have h2r' : (nrow + 1) / 2 = nrow / 2 := by omega
    have h2c' : (ncol + 1) / 2 = ncol / 2 := by omega
    simp only [specDWT, List.mem_cons, List.not_mem_nil, or_false] at hS
    rcases hS with rfl | rfl | rfl | rfl <;>
      refine ⟨by rw [(specSubband_shape _ _ _ _ _ _ _ _).1, h2r'],
        fun row hrow => by
          rw [(specSubband_shape _ _ _ _ _ _ _ _).2 row hrow, h2c']⟩

/-- Witness for C1 at a concrete 4×4 image. -/
theorem dwt_filters_then_downsamples_witness :
    (([[1, 2, 3, 4], [5, 6, 7, 8], [9, 10, 11, 12], [13, 14, 15, 16]] :
        List (List ℤ)).length = 4 ∧
      (∀ row ∈ ([[1, 2, 3, 4], [5, 6, 7, 8], [9, 10, 11, 12], [13, 14, 15, 16]] :
        List (List ℤ)), row.length = 4) ∧
      (0 : ℕ) < 4 ∧ (2 : ℕ) ∣ 4 ∧
      ([1, 2, 3, 4] : List ℤ).length = 4 ∧
      (∀ d ∈ ([1, 2, 3, 4] : List ℤ), d ≠ 0)) ∧
    dwt [[1, 2, 3, 4], [5, 6, 7, 8], [9, 10, 11, 12], [13, 14, 15, 16]]
        [1, 2, 3, 4] =
      .ok (specDWT [1, 2, 3, 4] 4 4
        [[1, 2, 3, 4], [5, 6, 7, 8], [9, 10, 11, 12], [13, 14, 15, 16]]) :=
  ⟨⟨by decide, by decide, by decide, by decide, by decide, by decide⟩,
   (dwt_filters_then_downsamples
     [[1, 2, 3, 4], [5, 6, 7, 8], [9, 10, 11, 12], [13, 14, 15, 16]]
     [1, 2, 3, 4] 4 4 (by decide) (by decide) (by decide) (by decide)
     (by decide) (by decide) (by decide) (by decide)).1⟩

-- ### Recursive decomposition (`encoder_2000.dwt_levels`)

/-- A slot of the 4-slot collection `dwt_levels` operates on: either a
leaf subband matrix, or the nested 4-element list that a recursive `dwt`
call put there. -/
inductive SubTree where
  | leaf (m : List (List ℤ))
  | node (l : List SubTree)
  deriving Repr

/-- One entry of the `levels` argument of `dwt_levels`: in the source a
Python list `[i]` (decompose slot `i`; `level[1]` then raises `IndexError`,
caught by the handler) or `[i, sublevels]` (recurse into the freshly
created subbands with `sublevels`). -/
inductive LevelSpec where
  | mk (idx : ℕ) (sub : Option (List LevelSpec))
  deriving Repr

mutual

/-- The `for level in levels` loop of `dwt_levels`, threading the in-place
mutation of `filtered_image` as explicit state.  Returns the final
contents of the collection and the exception (if any) escaping the loop:
`filtered_image[level[0]]` out of range is an uncaught `IndexError`;
calling `dwt` on a slot already holding a list raises (modelled
`typeError`); an `IndexError` escaping the recursive `dwt_levels` call
(in the source: `level[1]` on a one-element level) is caught by the
`except IndexError` handler and the loop continues; any other exception
propagates, keeping the mutations made so far. -/
def dwtLevelsLoop (qa : List ℤ) :
    List SubTree → List LevelSpec → List SubTree × Option PyErr
  | fi, [] => (fi, none)
  | fi, .mk idx sub :: rest =>
    match fi.get? idx with
    | none => (fi, some .indexError)
    | some (.node _) => (fi, some .typeError)
    | some (.leaf m) =>
      match dwt m qa with
      | .error e => (fi, some e)
      | .ok subs =>
        let inner := subs.map SubTree.leaf
        let fi1 := fi.set idx (.node inner)
        match sub with
        | none => dwtLevelsLoop qa fi1 rest
        | some ls =>
          match dwt_levels qa inner ls with
          | (innerFinal, none) =>
            dwtLevelsLoop qa (fi1.set idx (.node innerFinal)) rest
          | (innerFinal, some .indexError) =>
            dwtLevelsLoop qa (fi1.set idx (.node innerFinal)) rest
          | (innerFinal, some e) => (fi1.set idx (.node innerFinal), some e)
termination_by fi levels => (sizeOf levels, 0)

/-- Embeds `encoder_2000.dwt_levels`, with the in-place mutation of the caller's
list made explicit: returns the final contents of `filtered_image`
together with the exception escaping the call, if any.
`assert len(levels) <= 4` raises before anything else. -/
def dwt_levels (qa : List ℤ) (fi : List SubTree) (levels : List LevelSpec) :
    List SubTree × Option PyErr :=
  if levels.length ≤ 4 then dwtLevelsLoop qa fi levels
  else (fi, some .assertionError)
termination_by (sizeOf levels, 1)

end

-- ### `dwt` on an all-zero matrix

/-- The all-zero `n × m` integer matrix. -/
def zeroMat (n m : ℕ) : List (List ℤ) := List.replicate n (List.replicate m 0)

theorem getD_replicate_zero (n m : ℕ) : (List.replicate n (0 : ℚ)).getD m 0 = 0 := by
  rcases lt_or_ge m n with h | h
  · rw [List.getD_eq_getElem _ _ (by simpa using h)]
    exact List.getElem_replicate 0 _
  · exact List.getD_eq_default _ _ (by simpa using h)

theorem everySecond_replicate (n : ℕ) (a : α) :
    everySecond (List.replicate n a) = List.replicate ((n + 1) / 2) a := by
  rw [List.eq_replicate_iff]
  constructor
  · rw [everySecond_length, List.length_replicate]
  · intro x hx
    exact List.eq_of_mem_replicate (everySecond_mem _ _ hx)

theorem lfilter_zero (taps : List ℚ) (c n : ℕ) (hcK : c < taps.length)
    (hleft : taps.length - c - 1 < n) (hright : c < n) :
    lfilter taps (List.replicate n 0) c = List.replicate n 0 := by
  have hrl : (List.replicate n (0 : ℚ)).length = n := List.length_replicate n 0
  have hlen : (lfilter taps (List.replicate n 0) c).length = n := by
    rw [lfilter_length taps _ c hcK (by omega) (by omega), hrl]
  rw [List.eq_replicate_iff]
  refine ⟨hlen, ?_⟩
  intro x hx
  rw [lfilter_eq_conv_mirror taps _ c hcK (by omega) (by omega)] at hx
  have hmir : mirrorExtend taps (List.replicate n (0 : ℚ)) c =
      List.replicate (n + taps.length - 1) 0 := by
    rw [List.eq_replicate_iff]
    constructor
    · rw [mirrorExtend_length taps _ c hcK (by omega) (by omega), hrl]
    · intro y hy
      unfold mirrorExtend at hy
      rw [List.mem_append, List.mem_append] at hy
      rcases hy with (hy | hy) | hy
      · rw [List.mem_reverse] at hy
        exact List.eq_of_mem_replicate
          (List.mem_of_mem_drop (List.mem_of_mem_take hy))
      · exact List.eq_of_mem_replicate hy
      · rw [List.mem_reverse] at hy
        exact List.eq_of_mem_replicate
          (List.mem_of_mem_drop (List.mem_of_mem_take hy))
  rw [hmir] at hx
  unfold npConvolveValid at hx
  have hfull : ∀ z ∈ npConvolveFull (List.replicate (n + taps.length - 1) 0)
      taps.reverse, z = 0 := by
    intro z hz
    unfold npConvolveFull at hz
    rw [List.mem_map] at hz
    obtain ⟨k, hk, rfl⟩ := hz
    apply Finset.sum_eq_zero
    intro i hi
    rw [getD_replicate_zero]
    ring
  exact hfull x (List.mem_of_mem_drop (List.mem_of_mem_take hx))

theorem dwt_zero (n m : ℕ) (h3r : 3 ≤ n) (h3c : 3 ≤ m) :
    dwt (zeroMat n m) [1, 1, 1, 1] =
      .ok [zeroMat ((n + 1) / 2) ((m + 1) / 2), zeroMat ((n + 1) / 2) ((m + 1) / 2),
           zeroMat ((n + 1) / 2) ((m + 1) / 2), zeroMat ((n + 1) / 2) ((m + 1) / 2)] := by
  have h5 : LPF.length = 5 := rfl
  have h3 : HPF.length = 3 := rfl
  have hcL : LPF_center = 2 := rfl
  have hcH : HPF_center = 2 := rfl
  have hlen0 : (zeroMat n m).length = n := by
    unfold zeroMat; exact List.length_replicate n _
  have hhead : ((zeroMat n m).headD []).length = m := by
    obtain ⟨k, rfl⟩ : ∃ k, n = k + 1 := ⟨n - 1, by omega⟩
    unfold zeroMat
    rw [List.replicate_succ]
    simp
  have himg : (zeroMat n m).map (fun row => row.map (fun z : ℤ => (z : ℚ))) =
      List.replicate n (List.replicate m (0 : ℚ)) := by
    unfold zeroMat
    rw [List.map_replicate, List.map_replicate]
    norm_num
  have hrect0 : ∀ row ∈ List.replicate n (List.replicate m (0 : ℚ)),
      row.length = m := by
    intro row hrow
    rw [List.eq_of_mem_replicate hrow]
    exact List.length_replicate m 0
  have hlenQ : (List.replicate n (List.replicate m (0 : ℚ))).length = n :=
    List.length_replicate n _
  have hcol : ∀ i, col (List.replicate n (List.replicate m (0 : ℚ))) i =
      List.replicate n 0 := by
    intro i
    unfold col
    rw [List.map_replicate, getD_replicate_zero]
  have hBzero : ∀ (taps : List ℚ) (c : ℕ), c < taps.length →
      taps.length - c - 1 < n → c < n →
      ((List.range n).map (fun r => (List.range m).map (fun i =>
        (lfilter taps (col (List.replicate n (List.replicate m (0 : ℚ))) i) c).getD r 0))) =
      List.replicate n (List.replicate m (0 : ℚ)) := by
    intro taps c h1 h2 h3'
    have hinner : ∀ r : ℕ, ((List.range m).map (fun i =>
        (lfilter taps (col (List.replicate n (List.replicate m (0 : ℚ))) i) c).getD r 0)) =
        List.replicate m (0 : ℚ) := by
      intro r
      rw [List.eq_replicate_iff]
      refine ⟨by simp, ?_⟩
      intro x hx
      rw [List.mem_map] at hx
      obtain ⟨i, hi, rfl⟩ := hx
      rw [hcol i, lfilter_zero taps c n h1 h2 h3', getD_replicate_zero]
    rw [List.eq_replicate_iff]
    refine ⟨by simp, ?_⟩
    intro row hrow
    rw [List.mem_map] at hrow
    obtain ⟨r, hr, rfl⟩ := hrow
    exact hinner r
  have hq0 : quantizeVal 0 1 = 0 := by
    norm_num [quantizeVal, npRound]
  simp only [dwt]
  rw [hlen0, hhead, himg]
  rw [rowPass_ok LPF LPF_center m _ (by rw [h5, hcL]; omega)
    (by rw [h5, hcL]; omega) (by rw [hcL]; omega) hrect0]
  rw [List.map_replicate, lfilter_zero LPF LPF_center m (by rw [h5, hcL]; omega)
    (by rw [h5, hcL]; omega) (by rw [hcL]; omega)]
  simp only [exceptBind_ok]
  rw [rowPass_ok HPF HPF_center m _ (by rw [h3, hcH]; omega)
    (by rw [h3, hcH]; omega) (by rw [hcH]; omega) hrect0]
  rw [List.map_replicate, lfilter_zero HPF HPF_center m (by rw [h3, hcH]; omega)
    (by rw [h3, hcH]; omega) (by rw [hcH]; omega)]
  simp only [exceptBind_ok]
  rw [colPass_ok LPF LPF_center n m _ (by rw [h5, hcL]; omega)
    (by rw [h5, hcL]; omega) (by rw [hcL]; omega) hlenQ]
  rw [hBzero LPF LPF_center (by rw [h5, hcL]; omega) (by rw [h5, hcL]; omega)
    (by rw [hcL]; omega)]
  simp only [exceptBind_ok]
  rw [colPass_ok HPF HPF_center n m _ (by rw [h3, hcH]; omega)
    (by rw [h3, hcH]; omega) (by rw [hcH]; omega) hlenQ]
  rw [hBzero HPF HPF_center (by rw [h3, hcH]; omega) (by rw [h3, hcH]; omega)
    (by rw [hcH]; omega)]
  simp only [exceptBind_ok]
  rw [quantPass_ok [1, 1, 1, 1] 0 1 _ rfl]
  simp only [exceptBind_ok]
  rw [quantPass_ok [1, 1, 1, 1] 1 1 _ rfl]
  simp only [exceptBind_ok]
  rw [quantPass_ok [1, 1, 1, 1] 2 1 _ rfl]
  simp only [exceptBind_ok]
  rw [quantPass_ok [1, 1, 1, 1] 3 1 _ rfl]
  simp only [exceptBind_ok]
  simp only [everySecond_replicate, List.map_replicate, hq0]
  rfl

/-- Running `dwt_levels` with the single level `[idx]` replaces slot `idx`
(which must hold a matrix on which `dwt` succeeds) by the 4-slot result of
`dwt`, in place, and raises nothing. -/
theorem dwtLevels_single (qa : List ℤ) (fi : List SubTree) (idx : ℕ)
    (m : List (List ℤ)) (subs : List (List (List ℤ)))
    (hs : fi.get? idx = some (.leaf m)) (hd : dwt m qa = .ok subs) :
    dwt_levels qa fi [.mk idx none] =
      (fi.set idx (.node (subs.map SubTree.leaf)), none) := by
  unfold dwt_levels
  rw [if_pos (by norm_num)]
  unfold dwtLevelsLoop
  simp only [hs, hd]
  unfold dwtLevelsLoop
  rfl

/-- Running `dwt_levels` with the single level `[idx, ls]` decomposes slot
`idx` and recurses into the new 4-slot list with `ls`; when the recursion
finishes without an escaping exception, the slot ends up holding the
recursion's final state. -/
theorem dwtLevels_single_rec (qa : List ℤ) (fi : List SubTree) (idx : ℕ)
    (m : List (List ℤ)) (subs : List (List (List ℤ))) (ls : List LevelSpec)
    (innerFinal : List SubTree)
    (hs : fi.get? idx = some (.leaf m)) (hd : dwt m qa = .ok subs)
    (hrec : dwt_levels qa (subs.map SubTree.leaf) ls = (innerFinal, none)) :
    dwt_levels qa fi [.mk idx (some ls)] =
      (fi.set idx (.node innerFinal), none) := by
  unfold dwt_levels
  rw [if_pos (by norm_num)]
  unfold dwtLevelsLoop
  simp only [hs, hd, hrec]
  unfold dwtLevelsLoop
  rw [List.set_set]

/-- A 4-slot collection of all-zero `k × k` leaf subbands. -/
def fourZeroLeaves (k : ℕ) : List SubTree :=
  [SubTree.leaf (zeroMat k k), SubTree.leaf (zeroMat k k),
   SubTree.leaf (zeroMat k k), SubTree.leaf (zeroMat k k)]

/-- Nesting depth of a decomposition specification, as claim C6 words it:
a level `[i]` has depth 1, a level `[i, sub]` has depth `1 + depth sub`,
and a collection has the maximum depth of its entries. -/
def levelsDepth : List LevelSpec → ℕ
  | [] => 0
  | .mk _ none :: rest => max 1 (levelsDepth rest)
  | .mk _ (some ls) :: rest => max (1 + levelsDepth ls) (levelsDepth rest)

/-- C9 (amended): `dwt_levels` mutates the collection it is given, in
place: running it with the single level `[idx]` on a collection whose
slot `idx` holds a matrix on which `dwt` succeeds replaces that slot by
the node holding the four new subband leaves.  (`dwt` itself is embedded
as a pure function: the source only reads its `image_array`.) -/
theorem dwt_levels_updates_in_place (qa : List ℤ) (fi : List SubTree) (idx : ℕ)
    (m : List (List ℤ)) (subs : List (List (List ℤ)))
    (hs : fi.get? idx = some (.leaf m)) (hd : dwt m qa = .ok subs) :
    dwt_levels qa fi [.mk idx none] =
      (fi.set idx (.node (subs.map SubTree.leaf)), none) :=
  dwtLevels_single qa fi idx m subs hs hd

/-- Witness for (amended) C9: decomposing slot 0 of a collection of four
4×4 zero leaves. -/
theorem dwt_levels_updates_in_place_witness :
    (fourZeroLeaves 4).get? 0 = some (.leaf (zeroMat 4 4)) ∧
    dwt (zeroMat 4 4) [1, 1, 1, 1] =
      .ok [zeroMat 2 2, zeroMat 2 2, zeroMat 2 2, zeroMat 2 2] ∧
    dwt_levels [1, 1, 1, 1] (fourZeroLeaves 4) [.mk 0 none] =
      ((fourZeroLeaves 4).set 0
        (.node ([zeroMat 2 2, zeroMat 2 2, zeroMat 2 2, zeroMat 2 2].map SubTree.leaf)),
       none) :=
  ⟨rfl, dwt_zero 4 4 (by norm_num) (by norm_num),
   dwt_levels_updates_in_place [1, 1, 1, 1] (fourZeroLeaves 4) 0 (zeroMat 4 4)
     [zeroMat 2 2, zeroMat 2 2, zeroMat 2 2, zeroMat 2 2] rfl
     (dwt_zero 4 4 (by norm_num) (by norm_num))⟩

/-- C9 counterexample: the four 4×4 zero leaves are exactly the 4-slot
output of `dwt` on an 8×8 zero image, and `dwt_levels` on that collection
returns a collection different from the one it was given — the slot was
replaced in place. -/
theorem dwt_levels_mutates_its_input :
    dwt (zeroMat 8 8) [1, 1, 1, 1] =
      .ok [zeroMat 4 4, zeroMat 4 4, zeroMat 4 4, zeroMat 4 4] ∧
    (dwt_levels [1, 1, 1, 1] (fourZeroLeaves 4) [.mk 0 none]).1 ≠
      fourZeroLeaves 4 := by
  constructor
  · exact dwt_zero 8 8 (by norm_num) (by norm_num)
  · rw [dwtLevels_single [1, 1, 1, 1] (fourZeroLeaves 4) 0 (zeroMat 4 4)
      [zeroMat 2 2, zeroMat 2 2, zeroMat 2 2, zeroMat 2 2] rfl
      (dwt_zero 4 4 (by norm_num) (by norm_num))]
    simp [fourZeroLeaves, List.set]

/-- C6 (amended): `dwt_levels` checks the *number of entries* of the
specification collection it is handed (`assert len(levels) <= 4`), not
its nesting depth: any collection with more than 4 entries is rejected by
`AssertionError` before any decomposition. -/
theorem dwt_levels_rejects_breadth (qa : List ℤ) (fi : List SubTree)
    (levels : List LevelSpec) (h : 4 < levels.length) :
    dwt_levels qa fi levels = (fi, some .assertionError) := by
  unfold dwt_levels
  rw [if_neg (by omega)]

/-- Witness for (amended) C6 at a 5-entry specification. -/
theorem dwt_levels_rejects_breadth_witness :
    4 < ([LevelSpec.mk 0 none, .mk 1 none, .mk 2 none, .mk 3 none,
          .mk 0 none] : List LevelSpec).length ∧
    dwt_levels [1, 1, 1, 1] (fourZeroLeaves 4)
        [LevelSpec.mk 0 none, .mk 1 none, .mk 2 none, .mk 3 none, .mk 0 none] =
      (fourZeroLeaves 4, some .assertionError) :=
  ⟨by norm_num,
   dwt_levels_rejects_breadth [1, 1, 1, 1] (fourZeroLeaves 4) _ (by norm_num)⟩

/-- C6 counterexample: a depth-5 specification (one slot decomposed five
times) is *not* rejected: on a 48×48 collection `dwt_levels` runs to
completion with no exception and decomposes the slot (the collection
changes), where the claim requires an immediate rejection with no
decomposition performed. -/
theorem dwt_levels_accepts_depth_five :
    4 < levelsDepth
      [.mk 0 (some [.mk 0 (some [.mk 0 (some [.mk 0 (some [.mk 0 none])])])])] ∧
    (dwt_levels [1, 1, 1, 1] (fourZeroLeaves 48)
      [.mk 0 (some [.mk 0 (some [.mk 0 (some [.mk 0 (some [.mk 0 none])])])])]).2 =
      none ∧
    (dwt_levels [1, 1, 1, 1] (fourZeroLeaves 48)
      [.mk 0 (some [.mk 0 (some [.mk 0 (some [.mk 0 (some [.mk 0 none])])])])]).1 ≠
      fourZeroLeaves 48 := by
  have hd48 : dwt (zeroMat 48 48) [1, 1, 1, 1] =
      .ok [zeroMat 24 24, zeroMat 24 24, zeroMat 24 24, zeroMat 24 24] :=
    dwt_zero 48 48 (by norm_num) (by norm_num)
  have hd24 : dwt (zeroMat 24 24) [1, 1, 1, 1] =
      .ok [zeroMat 12 12, zeroMat 12 12, zeroMat 12 12, zeroMat 12 12] :=
    dwt_zero 24 24 (by norm_num) (by norm_num)
  have hd12 : dwt (zeroMat 12 12) [1, 1, 1, 1] =
      .ok [zeroMat 6 6, zeroMat 6 6, zeroMat 6 6, zeroMat 6 6] :=
    dwt_zero 12 12 (by norm_num) (by norm_num)
  have hd6 : dwt (zeroMat 6 6) [1, 1, 1, 1] =
      .ok [zeroMat 3 3, zeroMat 3 3, zeroMat 3 3, zeroMat 3 3] :=
    dwt_zero 6 6 (by norm_num) (by norm_num)
  have hd3 : dwt (zeroMat 3 3) [1, 1, 1, 1] =
      .ok [zeroMat 2 2, zeroMat 2 2, zeroMat 2 2, zeroMat 2 2] :=
    dwt_zero 3 3 (by norm_num) (by norm_num)
  have r1 := dwtLevels_single [1, 1, 1, 1] (fourZeroLeaves 3) 0 (zeroMat 3 3)
    [zeroMat 2 2, zeroMat 2 2, zeroMat 2 2, zeroMat 2 2] rfl hd3
  have r2 := dwtLevels_single_rec [1, 1, 1, 1] (fourZeroLeaves 6) 0 (zeroMat 6 6)
    [zeroMat 3 3, zeroMat 3 3, zeroMat 3 3, zeroMat 3 3] [.mk 0 none] _ rfl hd6 r1
  have r3 := dwtLevels_single_rec [1, 1, 1, 1] (fourZeroLeaves 12) 0 (zeroMat 12 12)
    [zeroMat 6 6, zeroMat 6 6, zeroMat 6 6, zeroMat 6 6]
    [.mk 0 (some [.mk 0 none])] _ rfl hd12 r2
  have r4 := dwtLevels_single_rec [1, 1, 1, 1] (fourZeroLeaves 24) 0 (zeroMat 24 24)
    [zeroMat 12 12, zeroMat 12 12, zeroMat 12 12, zeroMat 12 12]
    [.mk 0 (some [.mk 0 (some [.mk 0 none])])] _ rfl hd24 r3
  have r5 := dwtLevels_single_rec [1, 1, 1, 1] (fourZeroLeaves 48) 0 (zeroMat 48 48)
    [zeroMat 24 24, zeroMat 24 24, zeroMat 24 24, zeroMat 24 24]
    [.mk 0 (some [.mk 0 (some [.mk 0 (some [.mk 0 none])])])] _ rfl hd48 r4
  refine ⟨by simp [levelsDepth], ?_, ?_⟩
  · rw [r5]
  · rw [r5]
    simp [fourZeroLeaves, List.set]

-- ### Run-length decoding (`decoder.run_length_decode`)

/-- Embeds `decoder.run_length_decode`: scanning left to right, a `0` token
consumes the following count token `n` and emits `n+1` zeros
(`[0]*(rlcoded[i+1]+1)`; a negative Python repetition count yields the
empty list, hence the `toNat` clamp); a non-zero token emits itself and
advances by one.  A trailing `0` with no following token makes
`rlcoded[i+1]` raise `IndexError`, modelled as `none`. -/
def run_length_decode : List ℤ → Option (List ℤ)
  | [] => some []
  | x :: rest =>
    if x = 0 then
      match rest with
      | [] => none
      | n :: rest2 =>
        (run_length_decode rest2).map
          (fun s => List.replicate (n + 1).toNat 0 ++ s)
    else
      (run_length_decode rest).map (fun s => x :: s)

/-- Claim C4's described transformation, as worded: a `0` token together
with its following count token `n` becomes `n+1` zero values; a non-zero
token is emitted unchanged.  Total function; the trailing-unmatched-zero
case (excluded by well-formedness) is mapped to `[]`. -/
def rlDecodeSpec : List ℤ → List ℤ
  | [] => []
  | x :: rest =>
    if x = 0 then
      match rest with
      | [] => []
      | n :: rest2 => List.replicate (n + 1).toNat 0 ++ rlDecodeSpec rest2
    else x :: rlDecodeSpec rest

/-- Number of non-zero literal tokens the scan of claim C4 consumes. -/
def rlNonzeroCount : List ℤ → ℕ
  | [] => 0
  | x :: rest =>
    if x = 0 then
      match rest with
      | [] => 0
      | _ :: rest2 => rlNonzeroCount rest2
    else 1 + rlNonzeroCount rest

/-- Sum of `n+1` over the zero-marker pairs the scan of claim C4
consumes. -/
def rlPairSum : List ℤ → ℤ
  | [] => 0
  | x :: rest =>
    if x = 0 then
      match rest with
      | [] => 0
      | n :: rest2 => (n + 1) + rlPairSum rest2
    else rlPairSum rest

/-- Well-formedness in the sense of claim C4: every `0` token reached by
the scan is followed by a count token (a nonnegative count). -/
def rlWellFormed : List ℤ → Bool
  | [] => true
  | x :: rest =>
    if x = 0 then
      match rest with
      | [] => false
      | n :: rest2 => decide (0 ≤ n) && rlWellFormed rest2
    else rlWellFormed rest

/-- Claim C8's malformed-input condition: the scan reaches a `0` token
sitting in the last position (an unmatched zero marker). -/
def rlTrailingZero : List ℤ → Bool
  | [] => false
  | x :: rest =>
    if x = 0 then
      match rest with
      | [] => true
      | _ :: rest2 => rlTrailingZero rest2
    else rlTrailingZero rest

theorem run_length_decode_cons_ne (n : ℤ) (rest2 : List ℤ) (hx : ¬n = 0) :
    run_length_decode (n :: rest2) =
      (run_length_decode rest2).map (fun s => n :: s) := by
  cases rest2 with
  | nil => rw [run_length_decode.eq_2, if_neg hx]
  | cons a t => rw [run_length_decode.eq_3, if_neg hx]

theorem rlDecodeSpec_cons_ne (n : ℤ) (rest2 : List ℤ) (hx : ¬n = 0) :
    rlDecodeSpec (n :: rest2) = n :: rlDecodeSpec rest2 := by
  cases rest2 with
  | nil => rw [rlDecodeSpec.eq_2, if_neg hx]
  | cons a t => rw [rlDecodeSpec.eq_3, if_neg hx]

theorem rlNonzeroCount_cons_ne (n : ℤ) (rest2 : List ℤ) (hx : ¬n = 0) :
    rlNonzeroCount (n :: rest2) = 1 + rlNonzeroCount rest2 := by
  cases rest2 with
  | nil => rw [rlNonzeroCount.eq_2, if_neg hx]
  | cons a t => rw [rlNonzeroCount.eq_3, if_neg hx]

theorem rlPairSum_cons_ne (n : ℤ) (rest2 : List ℤ) (hx : ¬n = 0) :
    rlPairSum (n :: rest2) = rlPairSum rest2 := by
  cases rest2 with
  | nil => rw [rlPairSum.eq_2, if_neg hx]
  | cons a t => rw [rlPairSum.eq_3, if_neg hx]

theorem rlWellFormed_cons_ne (n : ℤ) (rest2 : List ℤ) (hx : ¬n = 0) :
    rlWellFormed (n :: rest2) = rlWellFormed rest2 := by
  cases rest2 with
  | nil => rw [rlWellFormed.eq_2, if_neg hx]
  | cons a t => rw [rlWellFormed.eq_3, if_neg hx]

theorem rlTrailingZero_cons_ne (n : ℤ) (rest2 : List ℤ) (hx : ¬n = 0) :
    rlTrailingZero (n :: rest2) = rlTrailingZero rest2 := by
  cases rest2 with
  | nil => rw [rlTrailingZero.eq_2, if_neg hx]
  | cons a t => rw [rlTrailingZero.eq_3, if_neg hx]

/-- C4.  On any stream in which each `0` token is followed by a count
token, `run_length_decode` succeeds and returns exactly the claimed
transformation, whose length is the number of non-zero tokens plus the
sum of `n+1` over the zero-marker pairs. -/
theorem run_length_decode_spec (s : List ℤ) (h : rlWellFormed s = true) :
    run_length_decode s = some (rlDecodeSpec s) ∧
    (((rlDecodeSpec s).length : ℤ) = rlNonzeroCount s + rlPairSum s) := by
  induction s using run_length_decode.induct with
  | case1 =>
    simp [run_length_decode, rlDecodeSpec, rlNonzeroCount, rlPairSum]
  | case2 =>
    simp [rlWellFormed.eq_2] at h
  | case3 n rest2 ih =>
    simp only [rlWellFormed, if_pos, Bool.and_eq_true, decide_eq_true_eq] at h
    obtain ⟨hn, hwf⟩ := h
    obtain ⟨ih1, ih2⟩ := ih hwf
    constructor
    · simp [run_length_decode, rlDecodeSpec, ih1]
    · simp only [rlDecodeSpec, if_pos, rlNonzeroCount, rlPairSum,
        List.length_append, List.length_replicate]
      push_cast
      rw [Int.toNat_of_nonneg (by omega)]
      omega
  | case4 n rest2 hx ih =>
    rw [rlWellFormed_cons_ne n rest2 hx] at h
    obtain ⟨ih1, ih2⟩ := ih h
    constructor
    · rw [run_length_decode_cons_ne n rest2 hx, ih1,
        rlDecodeSpec_cons_ne n rest2 hx]
      rfl
    · rw [rlDecodeSpec_cons_ne n rest2 hx, rlNonzeroCount_cons_ne n rest2 hx,
        rlPairSum_cons_ne n rest2 hx, List.length_cons]
      push_cast
      omega

/-- Witness for C4 at the stream `[3, 0, 2, 5]`. -/
theorem run_length_decode_spec_witness :
    rlWellFormed [3, 0, 2, 5] = true ∧
    (run_length_decode [3, 0, 2, 5] = some (rlDecodeSpec [3, 0, 2, 5]) ∧
      (((rlDecodeSpec [3, 0, 2, 5]).length : ℤ) =
        rlNonzeroCount [3, 0, 2, 5] + rlPairSum [3, 0, 2, 5])) :=
  ⟨by decide, run_length_decode_spec [3, 0, 2, 5] (by decide)⟩

/-- C8.  `run_length_decode` fails (raises) exactly on the streams whose
scan reaches an unmatched trailing `0`: it never silently under-reads. -/
theorem run_length_decode_fails_on_trailing_zero (s : List ℤ) :
    run_length_decode s = none ↔ rlTrailingZero s = true := by
  induction s using run_length_decode.induct with
  | case1 => simp [run_length_decode, rlTrailingZero]
  | case2 => simp [run_length_decode.eq_2, rlTrailingZero.eq_2]
  | case3 n rest2 ih =>
    simp only [run_length_decode, if_pos, rlTrailingZero, Option.map_eq_none']
    exact ih
  | case4 n rest2 hx ih =>
    rw [run_length_decode_cons_ne n rest2 hx, rlTrailingZero_cons_ne n rest2 hx,
      Option.map_eq_none']
    exact ih

/-- C7 (code evidence).  At the minimum length `N = 3` (for the high-pass
kernel, centre 2) `lfilter` returns 3 samples; at `N = 2`, one below the
minimum, it does **not** fail: the Python slices silently clamp, the
padded array has only 3 entries, and `np.convolve(..., 'valid')` returns
a single sample — a silently wrong result (contradicting the function's
own docstring "same length as array") instead of the precondition
violation the spec requires. -/
theorem lfilter_below_minimum_returns_result :
    (lfilter HPF [1, 2, 3] 2).length = 3 ∧
    (lfilter HPF [1, 2] 2).length = 1 := by decide

-- ### Zigzag serialization (spec-modelled) and the tree flattener

/-- Modelled from the spec: `encoder.generate_indicies_zigzag` (the
`encoder` module is not among the given sources; only its callers are).
Spec 4.5: a fixed bijection between the 2-D positions of a `rows × cols`
block and `[0, rows*cols)`, traversing anti-diagonals in alternating
direction — the classical zigzag scan: diagonal `d` holds the positions
`(i, d-i)`, traversed with increasing `i` for odd `d` and decreasing `i`
for even `d`. -/
def generate_indicies_zigzag (rows cols : ℕ) : List (ℕ × ℕ) :=
  (List.range (rows + cols - 1)).map (fun d =>
    let diag := ((List.range (d + 1)).filter
      (fun i => decide (i < rows ∧ d - i < cols))).map (fun i => (i, d - i))
    if d % 2 = 0 then diag.reverse else diag) |>.flatten

theorem list_sum_range (f : ℕ → ℕ) (n : ℕ) :
    ((List.range n).map f).sum = ∑ i ∈ Finset.range n, f i := by
  induction n with
  | zero => simp
  | succ k ih =>
    rw [List.range_succ, List.map_append, List.sum_append,
      Finset.sum_range_succ, ih]
    simp

theorem countP_range (Q : ℕ → Prop) [DecidablePred Q] (n : ℕ) :
    (List.range n).countP (fun i => decide (Q i)) =
      ((Finset.range n).filter Q).card := by
  induction n with
  | zero => simp
  | succ k ih =>
    rw [List.range_succ, List.countP_append, ih, Finset.range_succ,
      Finset.filter_insert]
    by_cases hq : Q k
    · rw [if_pos hq, Finset.card_insert_of_not_mem (by simp)]
      simp [hq]
    · rw [if_neg hq]
      simp [hq]

theorem zigzag_diag_card (rows cols d : ℕ) :
    ((Finset.range (d + 1)).filter (fun i => i < rows ∧ d - i < cols)).card =
      (((Finset.range rows) ×ˢ (Finset.range cols)).filter
        (fun p => p.1 + p.2 = d)).card := by
  apply Finset.card_bij (fun i _ => (i, d - i))
  · intro a ha
    rw [Finset.mem_filter, Finset.mem_range] at ha
    rw [Finset.mem_filter, Finset.mem_product, Finset.mem_range, Finset.mem_range]
    exact ⟨⟨ha.2.1, ha.2.2⟩, by omega⟩
  · intro a ha b hb hab
    exact congrArg Prod.fst hab
  · intro p hp
    rw [Finset.mem_filter, Finset.mem_product, Finset.mem_range,
      Finset.mem_range] at hp
    refine ⟨p.1, ?_, ?_⟩
    · rw [Finset.mem_filter, Finset.mem_range]
      exact ⟨by omega, hp.1.1, by omega⟩
    · have : d - p.1 = p.2 := by omega
      rw [this]

/-- The zigzag enumeration visits exactly `rows * cols` positions. -/
theorem generate_indicies_zigzag_length (rows cols : ℕ) :
    (generate_indicies_zigzag rows cols).length = rows * cols := by
  unfold generate_indicies_zigzag
  rw [List.length_flatten, List.map_map]
  have hpt : ∀ d : ℕ,
      ((List.length ∘ fun d => if d % 2 = 0 then
        (((List.range (d + 1)).filter
          (fun i => decide (i < rows ∧ d - i < cols))).map
            (fun i => (i, d - i))).reverse
      else ((List.range (d + 1)).filter
          (fun i => decide (i < rows ∧ d - i < cols))).map
            (fun i => (i, d - i))) d) =
      ((Finset.range (d + 1)).filter (fun i => i < rows ∧ d - i < cols)).card := by
    intro d
    have hlen : ∀ l : List (ℕ × ℕ), (if d % 2 = 0 then l.reverse else l).length
        = l.length := by
      intro l
      by_cases h2 : d % 2 = 0
      · rw [if_pos h2, List.length_reverse]
      · rw [if_neg h2]
    simp only [Function.comp]
    rw [hlen, List.length_map, ← List.countP_eq_length_filter, countP_range]
  rw [List.map_congr_left (fun d _ => hpt d), list_sum_range]
  have hsum : ∀ d ∈ Finset.range (rows + cols - 1),
      ((Finset.range (d + 1)).filter (fun i => i < rows ∧ d - i < cols)).card =
      (((Finset.range rows) ×ˢ (Finset.range cols)).filter
        (fun p => p.1 + p.2 = d)).card := fun d _ => zigzag_diag_card rows cols d
  rw [Finset.sum_congr rfl hsum]
  rw [← Finset.card_eq_sum_card_fiberwise (fun p hp => by
    rw [Finset.mem_product, Finset.mem_range, Finset.mem_range] at hp
    rw [Finset.mem_range]
    omega)]
  rw [Finset.card_product, Finset.card_range, Finset.card_range]

/-- Modelled from the spec: `encoder.serialize` (the `encoder` module is
not among the given sources).  Spec 4.5: produce the 1-D sequence of the
block's values in zigzag order.  (`dwt_serialize` calls it as
`serialize(i, True)`; the boolean selects this block-serialization path
and is omitted here.) -/
def serialize (m : List (List ℤ)) : List ℤ :=
  (generate_indicies_zigzag m.length (m.headD []).length).map
    (fun ij => (m.getD ij.1 []).getD ij.2 0)

theorem serialize_length (m : List (List ℤ)) :
    (serialize m).length = m.length * (m.headD []).length := by
  unfold serialize
  rw [List.length_map, generate_indicies_zigzag_length]

/-- An entry of the `length` record built by `dwt_serialize`: a plain
coefficient count for a leaf or the nested record of a subtree (in the
source, an `int` or a nested Python list). -/
inductive LenRec where
  | count (n : ℕ)
  | nested (l : List LenRec)
  deriving Repr

/-- Embeds `encoder_2000.dwt_serialize`: depth-first flattening of the subband
tree.  A list slot recurses with fresh accumulators and appends the
recursive stream to `output` while appending the recursive record as one
nested entry of `length`; a matrix slot appends its zigzag serialization
to `output` and its coefficient count to `length`. -/
def dwt_serialize : List SubTree → List ℤ → List LenRec → List ℤ × List LenRec
  | [], output, length => (output, length)
  | SubTree.node l :: rest, output, length =>
    let pair := dwt_serialize l [] []
    dwt_serialize rest (output ++ pair.1) (length ++ [.nested pair.2])
  | SubTree.leaf m :: rest, output, length =>
    let new_output := serialize m
    dwt_serialize rest (output ++ new_output) (length ++ [.count new_output.length])

/-- Claim C3's length record: the tree's shape with each leaf replaced by
that leaf's coefficient count. -/
def shapeRecord : List SubTree → List LenRec
  | [] => []
  | SubTree.leaf m :: rest =>
    .count (m.length * (m.headD []).length) :: shapeRecord rest
  | SubTree.node l :: rest => .nested (shapeRecord l) :: shapeRecord rest

/-- Sum of all the integers in a (nested) length record. -/
def recordSum : List LenRec → ℕ
  | [] => 0
  | .count n :: rest => n + recordSum rest
  | .nested l :: rest => recordSum l + recordSum rest

theorem dwt_serialize_acc (fi : List SubTree) :
    ∀ output length, dwt_serialize fi output length =
      (output ++ (dwt_serialize fi [] []).1,
       length ++ (dwt_serialize fi [] []).2) := by
  induction fi with
  | nil => intro output length; simp [dwt_serialize]
  | cons head rest ih =>
    intro output length
    cases head with
    | leaf m =>
      rw [dwt_serialize, dwt_serialize]
      rw [ih (output ++ serialize m) (length ++ [LenRec.count (serialize m).length])]
      rw [ih ([] ++ serialize m) ([] ++ [LenRec.count (serialize m).length])]
      simp
    | node l =>
      rw [dwt_serialize, dwt_serialize]
      rw [ih (output ++ (dwt_serialize l [] []).1)
        (length ++ [LenRec.nested (dwt_serialize l [] []).2])]
      rw [ih ([] ++ (dwt_serialize l [] []).1)
        ([] ++ [LenRec.nested (dwt_serialize l [] []).2])]
      simp

/-- C3.  For every subband tree, `dwt_serialize` (with empty initial
accumulators, as called) returns a length record that is the tree's shape
with each leaf replaced by its coefficient count, and the record's total
equals the length of the flat coefficient stream. -/
theorem dwt_serialize_shape_and_total (fi : List SubTree) :
    (dwt_serialize fi [] []).2 = shapeRecord fi ∧
    recordSum ((dwt_serialize fi [] []).2) = (dwt_serialize fi [] []).1.length := by
  suffices H : ∀ (k : ℕ) (t : List SubTree), sizeOf t ≤ k →
      (dwt_serialize t [] []).2 = shapeRecord t ∧
      recordSum ((dwt_serialize t [] []).2) = (dwt_serialize t [] []).1.length by
    exact H (sizeOf fi) fi le_rfl
  intro k
  induction k with
  | zero =>
    intro t ht
    exfalso
    cases t <;> simp at ht
  | succ k ih =>
    intro t ht
    cases t with
    | nil => simp [dwt_serialize, shapeRecord, recordSum]
    | cons head rest =>
      cases head with
      | leaf m =>
        have hszc : sizeOf (SubTree.leaf m :: rest) =
            1 + sizeOf (SubTree.leaf m) + sizeOf rest := by simp
        have hszl : 0 < sizeOf (SubTree.leaf m) := by
          simp
        have hr : sizeOf rest ≤ k := by omega
        obtain ⟨r2, rsum⟩ := ih rest hr
        rw [dwt_serialize, dwt_serialize_acc rest]
        constructor
        · simp [r2, shapeRecord, serialize_length]
        · simp only [recordSum]
          simp [recordSum, rsum]
      | node l =>
        have hszc : sizeOf (SubTree.node l :: rest) =
            1 + sizeOf (SubTree.node l) + sizeOf rest := by simp
        have hszn : sizeOf (SubTree.node l) = 1 + sizeOf l := by simp
        have hl : sizeOf l ≤ k := by omega
        have hr : sizeOf rest ≤ k := by omega
        obtain ⟨l2, lsum⟩ := ih l hl
        obtain ⟨r2, rsum⟩ := ih rest hr
        rw [dwt_serialize, dwt_serialize_acc rest]
        constructor
        · simp [shapeRecord, l2, r2]
        · simp only [recordSum]
          simp [recordSum, lsum, rsum]

-- ### Block deserialization (`decoder.deserialize`)

/-- numpy's int16 narrowing: the assigned value reduced modulo `2^16`
into `[-32768, 32767]` (numpy < 2 silently wraps out-of-range Python
ints on assignment into an `int16` array). -/
def toInt16 (v : ℤ) : ℤ := (v + 32768) % 65536 - 32768

/-- Read entry `(i, j)` of a matrix stored as a list of rows. -/
def getEntry (mtx : List (List ℤ)) (ij : ℕ × ℕ) : ℤ :=
  (mtx.getD ij.1 []).getD ij.2 0

/-- The inner zigzag loop of `deserialize`:
`matrix[i, j] = serialized[step]; step += 1` along the given index list;
reading past the end of `serialized` raises `IndexError`; the stored
value is narrowed to int16. -/
def fillBlock (serialized : List ℤ) :
    List (ℕ × ℕ) → ℕ → List (List ℤ) → Except PyErr (List (List ℤ) × ℕ)
  | [], step, mtx => .ok (mtx, step)
  | ij :: rest, step, mtx =>
    match serialized.get? step with
    | none => .error .indexError
    | some v =>
      fillBlock serialized rest (step + 1)
        (mtx.set ij.1 ((mtx.getD ij.1 []).set ij.2 (toInt16 v)))

/-- The outer block loop of `deserialize`, threading `step`. -/
def deserializeLoop (serialized : List ℤ) (n_rows n_cols : ℕ) :
    ℕ → ℕ → Except PyErr (List (List (List ℤ)))
  | 0, _ => .ok []
  | b + 1, step =>
    match fillBlock serialized (generate_indicies_zigzag n_rows n_cols) step
        (List.replicate n_rows (List.replicate n_cols 0)) with
    | .error e => .error e
    | .ok (mtx, step2) =>
      match deserializeLoop serialized n_rows n_cols b step2 with
      | .error e => .error e
      | .ok blocks => .ok (mtx :: blocks)

/-- Embeds `decoder.deserialize`: `n_blocks` zero-initialised
`n_rows × n_cols` int16 matrices, filled in zigzag order from the flat
stream (the source defaults `n_rows = n_cols = 8`). -/
def deserialize (serialized : List ℤ) (n_blocks n_rows n_cols : ℕ) :
    Except PyErr (List (List (List ℤ))) :=
  deserializeLoop serialized n_rows n_cols n_blocks 0

theorem getD_set_eq (l : List α) (i : ℕ) (a d : α) (h : i < l.length) :
    (l.set i a).getD i d = a := by
  rw [List.getD_eq_getElem?_getD, List.getElem?_set_self h]
  rfl

theorem getD_set_ne (l : List α) (i j : ℕ) (a d : α) (h : i ≠ j) :
    (l.set i a).getD j d = l.getD j d := by
  rw [List.getD_eq_getElem?_getD, List.getElem?_set_ne h,
    ← List.getD_eq_getElem?_getD]

theorem getEntry_set_same (mtx : List (List ℤ)) (ij : ℕ × ℕ) (v : ℤ)
    (h1 : ij.1 < mtx.length) (h2 : ij.2 < (mtx.getD ij.1 []).length) :
    getEntry (mtx.set ij.1 ((mtx.getD ij.1 []).set ij.2 v)) ij = v := by
  unfold getEntry
  rw [getD_set_eq _ _ _ _ h1, getD_set_eq _ _ _ _ h2]

theorem getEntry_set_other (mtx : List (List ℤ)) (ij pq : ℕ × ℕ) (v : ℤ)
    (hne : ij ≠ pq) :
    getEntry (mtx.set ij.1 ((mtx.getD ij.1 []).set ij.2 v)) pq =
      getEntry mtx pq := by
  unfold getEntry
  by_cases h1 : ij.1 = pq.1
  · have h2 : ij.2 ≠ pq.2 := by
      intro hc
      exact hne (Prod.ext h1 hc)
    rcases lt_or_ge pq.1 mtx.length with hlt | hge
    · rw [h1, getD_set_eq _ _ _ _ hlt, ← h1, getD_set_ne _ _ _ _ _ h2, h1]
    · have hX : (mtx.set ij.1 ((mtx.getD ij.1 []).set ij.2 v)).getD pq.1 [] = [] :=
        List.getD_eq_default _ _ (by rw [List.length_set]; omega)
      have hM : mtx.getD pq.1 [] = [] := List.getD_eq_default _ _ (by omega)
      rw [hX, hM]
  · rw [getD_set_ne _ _ _ _ _ h1]

theorem fillBlock_spec (serialized : List ℤ) (idxs : List (ℕ × ℕ)) :
    ∀ (step : ℕ) (mtx : List (List ℤ)), idxs.Nodup →
      (∀ ij ∈ idxs, ij.1 < 8 ∧ ij.2 < 8) →
      mtx.length = 8 → (∀ r, r < 8 → (mtx.getD r []).length = 8) →
      step + idxs.length ≤ serialized.length →
      ∃ final, fillBlock serialized idxs step mtx = .ok (final, step + idxs.length) ∧
        final.length = 8 ∧ (∀ r, r < 8 → (final.getD r []).length = 8) ∧
        (∀ k, k < idxs.length → getEntry final (idxs.getD k (0, 0)) =
          toInt16 (serialized.getD (step + k) 0)) ∧
        (∀ pq, pq ∉ idxs → getEntry final pq = getEntry mtx pq) := by
  induction idxs with
  | nil =>
    intro step mtx _ _ h8 hrow _
    refine ⟨mtx, by simp [fillBlock], h8, hrow, ?_, fun pq _ => rfl⟩
    intro k hk
    simp at hk
  | cons ij rest ihr =>
    intro step mtx hnd hbnd h8 hrow hlen
    rw [List.nodup_cons] at hnd
    obtain ⟨hij1, hij2⟩ := hbnd ij (List.mem_cons_self ij rest)
    have hstep : step < serialized.length := by
      rw [List.length_cons] at hlen
      omega
    have hget : serialized.get? step = some (serialized.getD step 0) :=
      get?_eq_some_getD serialized step hstep
    have h8s : (mtx.set ij.1 ((mtx.getD ij.1 []).set ij.2
        (toInt16 (serialized.getD step 0)))).length = 8 := by
      rw [List.length_set]
      exact h8
    have hrows : ∀ r, r < 8 → ((mtx.set ij.1 ((mtx.getD ij.1 []).set ij.2
        (toInt16 (serialized.getD step 0)))).getD r []).length = 8 := by
      intro r hr
      by_cases hri : ij.1 = r
      · subst hri
        rw [getD_set_eq _ _ _ _ (by omega), List.length_set]
        exact hrow ij.1 hij1
      · rw [getD_set_ne _ _ _ _ _ hri]
        exact hrow r hr
    obtain ⟨final, heq, hf8, hfr, hfk, hfout⟩ := ihr (step + 1)
      (mtx.set ij.1 ((mtx.getD ij.1 []).set ij.2 (toInt16 (serialized.getD step 0))))
      hnd.2 (fun p hp => hbnd p (List.mem_cons_of_mem ij hp)) h8s hrows
      (by rw [List.length_cons] at hlen; omega)
    refine ⟨final, ?_, hf8, hfr, ?_, ?_⟩
    · rw [fillBlock]
      simp only [hget]
      rw [heq, List.length_cons]
      have harith : step + 1 + rest.length = step + (rest.length + 1) := by omega
      rw [harith]
    · intro k hk
      cases k with
      | zero =>
        rw [List.getD_cons_zero]
        rw [hfout ij hnd.1]
        rw [Nat.add_zero]
        exact getEntry_set_same mtx ij (toInt16 (serialized.getD step 0))
          (by omega) (by rw [hrow ij.1 hij1]; omega)
      | succ k2 =>
        rw [List.getD_cons_succ]
        rw [List.length_cons] at hk
        rw [hfk k2 (by omega)]
        have harith : step + 1 + k2 = step + (k2 + 1) := by omega
        rw [harith]
    · intro pq hpq
      rw [List.mem_cons] at hpq
      push_neg at hpq
      rw [hfout pq hpq.2]
      exact getEntry_set_other mtx ij pq _ (fun hc => hpq.1 hc.symm)

theorem zigzag88_nodup : (generate_indicies_zigzag 8 8).Nodup := by decide

theorem zigzag88_bounds : ∀ ij ∈ generate_indicies_zigzag 8 8,
    ij.1 < 8 ∧ ij.2 < 8 := by decide

theorem zigzag88_length : (generate_indicies_zigzag 8 8).length = 64 := by
  rw [generate_indicies_zigzag_length]

theorem deserializeLoop_spec (serialized : List ℤ) :
    ∀ (cnt step : ℕ), step + cnt * 64 ≤ serialized.length →
      ∃ blocks, deserializeLoop serialized 8 8 cnt step = .ok blocks ∧
        blocks.length = cnt ∧
        ∀ b, b < cnt → ∀ k, k < 64 →
          getEntry (blocks.getD b [])
            ((generate_indicies_zigzag 8 8).getD k (0, 0)) =
            toInt16 (serialized.getD (step + b * 64 + k) 0) := by
  intro cnt
  induction cnt with
  | zero =>
    intro step hlen
    refine ⟨[], by simp [deserializeLoop], rfl, ?_⟩
    intro b hb
    omega
  | succ c ih =>
    intro step hlen
    obtain ⟨final, heq, hf8, hfr, hfk, hfout⟩ := fillBlock_spec serialized
      (generate_indicies_zigzag 8 8) step
      (List.replicate 8 (List.replicate 8 0))
      zigzag88_nodup zigzag88_bounds (by simp)
      (by
        intro r hr
        have hgd : (List.replicate 8 (List.replicate 8 (0 : ℤ))).getD r [] =
            List.replicate 8 0 := by
          rw [List.getD_eq_getElem _ _ (by simp; omega)]
          exact List.getElem_replicate _ _
        rw [hgd]
        simp)
      (by rw [zigzag88_length]; omega)
    rw [zigzag88_length] at heq
    obtain ⟨blocks, hbeq, hblen, hbk⟩ := ih (step + 64) (by omega)
    refine ⟨final :: blocks, ?_, by simp [hblen], ?_⟩
    · rw [deserializeLoop]
      simp only [heq, hbeq]
    · intro b hb k hk
      cases b with
      | zero =>
        simp only [List.getD_cons_zero]
        have e : step + 0 * 64 + k = step + k := by omega
        rw [e]
        exact hfk k (by rw [zigzag88_length]; omega)
      | succ b2 =>
        simp only [List.getD_cons_succ]
        have e : step + (b2 + 1) * 64 + k = (step + 64) + b2 * 64 + k := by
          ring_nf
        rw [e]
        exact hbk b2 (by omega) k hk

/-- C10.  For every integer input stream long enough for the requested
block count (the source would raise `IndexError` otherwise), `deserialize`
returns `n_blocks` 8×8 blocks whose every stored coefficient is the
corresponding input value narrowed to int16 — reduced modulo `2^16` into
`[-32768, 32767]` — so out-of-range inputs are silently wrapped rather
than preserved or rejected; the zigzag enumeration is duplicate-free and
of length 64, so all 64 cells of each block are stored this way. -/
theorem deserialize_narrows_to_int16 (serialized : List ℤ) (n_blocks : ℕ)
    (hlen : n_blocks * 64 ≤ serialized.length) :
    (∀ v : ℤ, -32768 ≤ toInt16 v ∧ toInt16 v ≤ 32767 ∧
      (v - toInt16 v) % 65536 = 0) ∧
    (generate_indicies_zigzag 8 8).Nodup ∧
    (generate_indicies_zigzag 8 8).length = 64 ∧
    ∃ blocks, deserialize serialized n_blocks 8 8 = .ok blocks ∧
      blocks.length = n_blocks ∧
      ∀ b, b < n_blocks → ∀ k, k < 64 →
        getEntry (blocks.getD b [])
          ((generate_indicies_zigzag 8 8).getD k (0, 0)) =
          toInt16 (serialized.getD (b * 64 + k) 0) := by
  refine ⟨?_, zigzag88_nodup, zigzag88_length, ?_⟩
  · intro v
    unfold toInt16
    omega
  · obtain ⟨blocks, heq, hlen2, hk⟩ :=
      deserializeLoop_spec serialized n_blocks 0 (by omega)
    refine ⟨blocks, heq, hlen2, ?_⟩
    intro b hb k hk2
    have e : b * 64 + k = 0 + b * 64 + k := by omega
    rw [e]
    exact hk b hb k hk2

/-- Witness for C10 on one block of values 100000 (outside int16 range). -/
theorem deserialize_narrows_to_int16_witness :
    1 * 64 ≤ (List.replicate 64 (100000 : ℤ)).length ∧
    ((∀ v : ℤ, -32768 ≤ toInt16 v ∧ toInt16 v ≤ 32767 ∧
      (v - toInt16 v) % 65536 = 0) ∧
    (generate_indicies_zigzag 8 8).Nodup ∧
    (generate_indicies_zigzag 8 8).length = 64 ∧
    ∃ blocks, deserialize (List.replicate 64 (100000 : ℤ)) 1 8 8 = .ok blocks ∧
      blocks.length = 1 ∧
      ∀ b, b < 1 → ∀ k, k < 64 →
        getEntry (blocks.getD b [])
          ((generate_indicies_zigzag 8 8).getD k (0, 0)) =
          toInt16 ((List.replicate 64 (100000 : ℤ)).getD (b * 64 + k) 0)) :=
  ⟨by decide,
   deserialize_narrows_to_int16 (List.replicate 64 (100000 : ℤ)) 1 (by decide)⟩
